import Mathlib

/-!
Verification of the obsidian-brain indexing-and-retrieval engine.

This file gives a shallow embedding, in Lean 4, of the core of the
repository: the vector store (`src/db.rs`), the fragment splitter
(`src/chunker.rs`), the ranker (`src/search.rs`) and the synchronizer
(`src/index.rs`), together with theorems settling the specification
claims about them.

Modelling conventions:
* Rust `f32` scores and vector components are modelled as `ℚ`; the
  claims under study concern ordering, counting and set membership,
  none of which depend on floating-point rounding.
* Rust `u64` ids are modelled as `Nat`, `i64` timestamps as `Int`.
* Fallible Rust functions (`Result`) become `Except String`.
* The `usearch` ANN index is an external dependency whose source is not
  part of the repository; its operations are modelled from the spec's
  description of its contract (see the `Modelled from the spec:` doc
  comments).
-/

deriving instance DecidableEq for Except

namespace Brain

/-- `VECTOR_DIM` from `src/db.rs`: the embedder output dimension. -/
def VECTOR_DIM : Nat := 384

/-- `ChunkMeta` from `src/db.rs`: one fragment's metadata row. -/
structure ChunkMeta where
  id : Nat
  path : String
  filename : String
  text : String
  mtime : Int
deriving DecidableEq

/-- Options passed to the ANN index constructor (`index_options` in
`src/db.rs`); only the dimension is relevant to the model (metric is
fixed to cosine, quantization is a storage detail). -/
structure IndexOptions where
  dimensions : Nat
deriving DecidableEq

/-- `index_options()` from `src/db.rs`. -/
def index_options : IndexOptions := ⟨VECTOR_DIM⟩

/-- Modelled from the spec: the `usearch` ANN index (an external
dependency, not repository source), as "approximate-nearest-neighbor
structure mapping numeric ids to vectors".  It is modelled as an
association list of (id, vector) pairs plus its configured dimension. -/
structure Index where
  dim : Nat
  entries : List (Nat × List ℚ)
deriving DecidableEq

namespace Index

/-- Modelled from the spec: `Index::new(&options)` starts empty with the
configured dimension. -/
def new (opts : IndexOptions) : Index := ⟨opts.dimensions, []⟩

/-- The ids present in the ANN index. -/
def keys (ix : Index) : List Nat := ix.entries.map (fun e => e.1)

/-- Modelled from the spec: `index.size()` is the number of stored vectors. -/
def size (ix : Index) : Nat := ix.entries.length

/-- Modelled from the spec: `index.add(key, vec)` stores a vector under an
id; it fails on a dimension mismatch ("dimension mismatches ... are
reported, never silently coerced") and on a duplicate id. -/
def add (ix : Index) (key : Nat) (vec : List ℚ) : Except String Index :=
  if vec.length ≠ ix.dim then .error "dimension mismatch"
  else if key ∈ ix.keys then .error "duplicate key"
  else .ok ⟨ix.dim, ix.entries ++ [(key, vec)]⟩

/-- Modelled from the spec: `index.remove(key)` drops the vector stored
under an id; removing an absent id is not an error (the caller in
`db.rs` discards the result with `let _ =`). -/
def remove (ix : Index) (key : Nat) : Index :=
  ⟨ix.dim, ix.entries.filter (fun e => e.1 ≠ key)⟩

/-- Dot product of two vectors. -/
def dot (q v : List ℚ) : ℚ := (List.zipWith (fun a b => a * b) q v).sum

/-- Modelled from the spec: cosine distance ("0 = identical direction,
2 = opposite"); since the spec guarantees all stored and query vectors
are L2-normalized, cosine distance is `1 - dot product`. -/
def cosDist (q v : List ℚ) : ℚ := 1 - dot q v

/-- Insertion step of the sort used by `Index.search`, keeping the list
sorted ascending by distance. -/
def insertByDist (x : Nat × ℚ) : List (Nat × ℚ) → List (Nat × ℚ)
  | [] => [x]
  | y :: ys => if x.2 ≤ y.2 then x :: y :: ys else y :: insertByDist x ys

/-- Sort (id, distance) pairs ascending by distance. -/
def sortByDist : List (Nat × ℚ) → List (Nat × ℚ)
  | [] => []
  | x :: xs => insertByDist x (sortByDist xs)

/-- Modelled from the spec: `index.search(query, limit)` "returns up to
`limit` (id, distance) pairs ordered by ascending distance under the
index's configured metric"; it "fails if the store is empty or the query
dimension mismatches". -/
def search (ix : Index) (query : List ℚ) (limit : Nat) :
    Except String (List (Nat × ℚ)) :=
  if ix.entries.isEmpty then .error "empty index"
  else if query.length ≠ ix.dim then .error "dimension mismatch"
  else .ok ((sortByDist (ix.entries.map
      (fun e => (e.1, cosDist query e.2)))).take limit)

end Index

/-- `Database` from `src/db.rs`: the ANN index, the metadata table and
the next assignable id.  The `data_dir` field is a filesystem location
and is not part of the in-memory model; persistence is modelled by
`Database.save` returning the two artifacts and `Database.open` taking
them (`none` = the file does not exist on disk). -/
structure Database where
  index : Index
  chunks : List ChunkMeta
  next_id : Nat
deriving DecidableEq

namespace Database

/-- `next_id` computation in `Database::open`:
`chunks.iter().map(|c| c.id + 1).max().unwrap_or(0)`. -/
def nextIdOf (chunks : List ChunkMeta) : Nat :=
  ((chunks.map (fun c => c.id + 1)).max?).getD 0

/-- `Database::open` from `src/db.rs`: build a fresh index from
`index_options`, load the persisted vectors into it if the index
artifact exists, load the metadata table if its artifact exists
(otherwise start empty), and recompute the next assignable id from the
metadata table. -/
def «open» (indexFile : Option (List (Nat × List ℚ)))
    (chunksFile : Option (List ChunkMeta)) : Database :=
  let ix := Index.new index_options
  let ix := match indexFile with
    | some entries => { ix with entries := entries }
    | none => ix
  let chunks := match chunksFile with
    | some cs => cs
    | none => []
  ⟨ix, chunks, nextIdOf chunks⟩

/-- `Database::save` from `src/db.rs`: serialize the index and the
metadata table to the two on-disk artifacts.  The round trip through
serialization is modelled as the identity on the stored data. -/
def save (db : Database) :
    Option (List (Nat × List ℚ)) × Option (List ChunkMeta) :=
  (some db.index.entries, some db.chunks)

/-- `Database::delete_by_path` from `src/db.rs`: collect the ids of all
chunks whose path equals the argument, remove each from the ANN index,
then retain only the chunks with a different path. -/
def delete_by_path (db : Database) (path : String) : Database :=
  let to_remove : List Nat :=
    (db.chunks.filter (fun c => c.path = path)).map (fun c => c.id)
  let ix := to_remove.foldl (fun ix id => ix.remove id) db.index
  ⟨ix, db.chunks.filter (fun c => ¬ (c.path = path)), db.next_id⟩

/-- The loop body of `Database::insert_chunks`: walk
`metas.iter_mut().zip(vectors.iter())`, overwriting each zipped meta's
id with the next sequential id and adding its vector to the index under
that id.  Metas beyond the zipped prefix are returned unchanged (with
their caller-supplied id). -/
def assignLoop : List ChunkMeta → List (List ℚ) → Nat → Index →
    Except String (List ChunkMeta × Nat × Index)
  | [], _, nid, ix => .ok ([], nid, ix)
  | m :: ms, [], nid, ix => .ok (m :: ms, nid, ix)
  | m :: ms, v :: vs, nid, ix =>
    match ix.add nid v with
    | .error e => .error e
    | .ok ix' =>
      match assignLoop ms vs (nid + 1) ix' with
      | .error e => .error e
      | .ok (ms', nid', ix'') => .ok ({ m with id := nid } :: ms', nid', ix'')

/-- `Database::insert_chunks` from `src/db.rs`: assign sequential ids to
the zipped (meta, vector) pairs, add each vector to the index, then
extend the metadata table with all the metas.  (`index.reserve` is a
capacity hint with no observable effect in the model.) -/
def insert_chunks (db : Database) (metas : List ChunkMeta)
    (vectors : List (List ℚ)) : Except String Database :=
  match assignLoop metas vectors db.next_id db.index with
  | .error e => .error e
  | .ok (metas', nid', ix') => .ok ⟨ix', db.chunks ++ metas', nid'⟩

/-- `Database::search` from `src/db.rs`: forward to the index. -/
def search (db : Database) (query_vec : List ℚ) (limit : Nat) :
    Except String (List (Nat × ℚ)) :=
  db.index.search query_vec limit

end Database

/-! ## Fragment splitter (`src/chunker.rs`) -/

/-- `Chunker` from `src/chunker.rs`. -/
structure Chunker where
  chunk_size : Nat
  chunk_overlap : Nat
deriving DecidableEq

/-- `Chunker::default()`: window 1000, overlap 200. -/
def Chunker.default : Chunker := ⟨1000, 200⟩

/-- The `while start < chars.len()` loop of `Chunker::chunk`, with an
explicit fuel argument standing for the loop's iteration bound: when
`chunk_overlap < chunk_size` each iteration advances `start` by at
least one, so `chars.length` iterations always suffice (the fuel is
exhausted only in the `chunk_overlap ≥ chunk_size` case, where the Rust
loop does not terminate either). -/
def Chunker.chunkLoop (c : Chunker) (chars : List Char) :
    Nat → Nat → List (List Char)
  | 0, _ => []
  | fuel + 1, start =>
    if start < chars.length then
      let e := min (start + c.chunk_size) chars.length
      let window := (chars.drop start).take (e - start)
      if e = chars.length then [window]
      else window :: c.chunkLoop chars fuel (start + (c.chunk_size - c.chunk_overlap))
    else []

/-- `Chunker::chunk` from `src/chunker.rs`: empty text yields no chunks;
otherwise collect the text's chars and emit windows of `chunk_size`
chars starting `chunk_size - chunk_overlap` apart, the last one clipped
to the end of the text. -/
def Chunker.chunk (c : Chunker) (text : String) : List String :=
  if text.data.isEmpty then []
  else (c.chunkLoop text.data text.data.length 0).map String.mk

/-! ## Ranker (`src/search.rs`) -/

/-- `SearchResult` from `src/search.rs`. -/
structure SearchResult where
  path : String
  score : ℚ
deriving DecidableEq

/-- Rust `String::len`: the UTF-8 byte length of a string. -/
def byteLen (s : String) : Nat := (s.data.map Char.utf8Size).sum

/-- Rust `str::to_lowercase`, modelled character-wise. -/
def toLowerStr (s : String) : String := String.mk (s.data.map Char.toLower)

/-- Rust `split_whitespace`: cut at whitespace runs, emitting no empty
tokens; `cur` accumulates the current token's characters in reverse. -/
def wsTokens : List Char → List Char → List String
  | [], cur => if cur.isEmpty then [] else [String.mk cur.reverse]
  | c :: rest, cur =>
    if c.isWhitespace then
      if cur.isEmpty then wsTokens rest []
      else String.mk cur.reverse :: wsTokens rest []
    else wsTokens rest (c :: cur)

/-- The query tokenization in `run_search`:
`query.to_lowercase().split_whitespace()` (lowercase the whole query,
split on whitespace runs, no empty tokens). -/
def queryWords (query : String) : List String :=
  wsTokens (toLowerStr query).data []

/-- Rust `str::contains(&str)`: substring test. -/
def isSubstr (needle hay : String) : Bool :=
  (List.range (hay.data.length + 1)).any
    (fun i => needle.data.isPrefixOf (hay.data.drop i))

/-- The per-fragment score computed in `run_search`'s loop: start from
the raw distance and subtract the 0.7 filename boost when some query
word of byte length > 2 is a substring of the (already lowercased)
display name. -/
def chunkScore (query_words : List String) (filenameLower : String)
    (distance : ℚ) : ℚ :=
  if query_words.any
      (fun word => decide (2 < byteLen word) && isSubstr word filenameLower)
  then distance - 7/10 else distance

/-- The `file_map` update in `run_search`: insert the (path, score)
entry if the path is absent, replace it if the new score is strictly
smaller, otherwise keep the map unchanged. -/
def fmInsert (m : List SearchResult) (p : String) (s : ℚ) :
    List SearchResult :=
  match m.find? (fun r => decide (r.path = p)) with
  | none => m ++ [⟨p, s⟩]
  | some r =>
    if s < r.score then
      m.map (fun q => if q.path = p then ⟨p, s⟩ else q)
    else m

/-- The `for (key, distance) in matches` loop of `run_search`: look the
id up in the metadata table (silently skipping misses), score the
fragment, and fold the (path, score) pairs into the per-path map. -/
def buildFileMap (chunks : List ChunkMeta) (query_words : List String)
    («matches» : List (Nat × ℚ)) : List SearchResult :=
  «matches».foldl (fun m kd =>
    match chunks.find? (fun c => decide (c.id = kd.1)) with
    | none => m
    | some meta =>
      fmInsert m meta.path
        (chunkScore query_words (toLowerStr meta.filename) kd.2)) []

/-- Insertion step of the sort modelling `sorted.sort_by(partial_cmp)`. -/
def insertByScore (x : SearchResult) : List SearchResult → List SearchResult
  | [] => [x]
  | y :: ys => if x.score ≤ y.score then x :: y :: ys else y :: insertByScore x ys

/-- Sort results ascending by score (`sort_by` on scores). -/
def sortByScore : List SearchResult → List SearchResult
  | [] => []
  | x :: xs => insertByScore x (sortByScore xs)

/-- `run_search` from `src/search.rs`.  The embedder is passed as a
function argument standing for `EmbeddingEngine::embed`; indexing `[0]`
into an empty embedder output (a Rust panic) is modelled as an error. -/
def run_search (embed : List String → Except String (List (List ℚ)))
    (db : Database) (query : String) : Except String (List SearchResult) :=
  match embed [query] with
  | .error e => .error e
  | .ok [] => .error "index out of bounds"
  | .ok (query_vector :: _) =>
    match db.search query_vector 20 with
    | .error e => .error e
    | .ok «matches» =>
      let query_words := queryWords query
      let file_map := buildFileMap db.chunks query_words «matches»
      let sorted := sortByScore file_map
      .ok ((sorted.filter (fun r => decide (r.score < 6/5))).take 5)

/-! ## Synchronizer (`src/index.rs`)

File discovery (`WalkDir`, ignore-folder pruning, the `.md` extension
filter, `fs::metadata`) happens at the filesystem boundary; the model
takes the discovered candidate files as a list of `FileEnt`, each
carrying the data `process_batch` reads from the filesystem: the
vault-relative path, the file stem, the parent-folder breadcrumb, the
content and the modification time. -/

/-- One candidate file of a sync pass, as seen by `process_batch`. -/
structure FileEnt where
  relPath : String
  filename : String
  breadcrumb : String
  content : String
  mtime : Int
deriving DecidableEq

/-- `content.trim().is_empty()`: the content is all whitespace. -/
def isWhitespaceOnly (s : String) : Bool := s.data.all Char.isWhitespace

/-- The `identity_header` format string of `process_batch`. -/
def identity_header (filename breadcrumb : String) : String :=
  "FILE_NAME: " ++ filename ++ "\nHOLDER_FOLDERS: " ++ breadcrumb ++
    "\nDOCUMENT_SUBJECT: " ++ filename ++ "\n--- START OF CONTENT ---\n"

/-- Phase 1 of `process_batch` for one file: whitespace-only content
produces zero chunks; otherwise prepend the identity header and chunk
with the default chunker. -/
def fileChunks (f : FileEnt) : List String :=
  if isWhitespaceOnly f.content then []
  else Chunker.default.chunk (identity_header f.filename f.breadcrumb ++ f.content)

/-- One element of `file_results` in `process_batch`:
`(rel_path, filename, chunks, mtime)`. -/
def chunkFileResult (f : FileEnt) : String × String × List String × Int :=
  (f.relPath, f.filename, fileChunks f, f.mtime)

/-- The batched-embedding loop of `process_batch`, with an explicit
fuel argument bounding the iteration count: each iteration consumes 32
pending texts (at least one), so `texts.length` iterations always
suffice and the zero-fuel case below is unreachable for the fuel
`embedBatches` supplies. -/
def embedLoop (embed : List String → Except String (List (List ℚ))) :
    Nat → List String → Except String (List (List ℚ))
  | _, [] => .ok []
  | fuel + 1, t :: ts =>
    match embed ((t :: ts).take 32) with
    | .error e => .error e
    | .ok es =>
      match embedLoop embed fuel ((t :: ts).drop 32) with
      | .error e => .error e
      | .ok rest => .ok (es ++ rest)
  | 0, _ :: _ => .ok []

/-- The batched-embedding loop of `process_batch`: embed the pending
texts 32 at a time and concatenate the results in input order. -/
def embedBatches (embed : List String → Except String (List (List ℚ)))
    (texts : List String) : Except String (List (List ℚ)) :=
  embedLoop embed texts.length texts

/-- Phase 2 step of `process_batch`: delete the file's old fragments,
then append its new chunk texts and their metadata rows (id 0, to be
assigned by `insert_chunks`). -/
def batchStep (acc : Database × List String × List ChunkMeta)
    (r : String × String × List String × Int) :
    Database × List String × List ChunkMeta :=
  let (db, all_chunks, chunk_metas) := acc
  let (rel_path, filename, chunks, mtime) := r
  let db := db.delete_by_path rel_path
  (db, all_chunks ++ chunks,
    chunk_metas ++ chunks.map (fun text => ⟨0, rel_path, filename, text, mtime⟩))

/-- `process_batch` from `src/index.rs`: chunk every file (pure, phase
1), delete each file's prior fragments and accumulate the new chunks
(phase 2), return early if no chunks were produced, otherwise embed in
sub-batches of 32 (phase 3) and insert everything in one call (phase 4). -/
def process_batch (files : List FileEnt) (db : Database)
    (embed : List String → Except String (List (List ℚ))) :
    Except String Database :=
  let file_results := files.map chunkFileResult
  let folded := file_results.foldl batchStep (db, [], [])
  let db2 := folded.1
  let all_chunks := folded.2.1
  let chunk_metas := folded.2.2
  if all_chunks.isEmpty then .ok db2
  else
    match embedBatches embed all_chunks with
    | .error e => .error e
    | .ok all_embeddings => db2.insert_chunks chunk_metas all_embeddings

/-- The scan filter of `run_index`: with `force` the watermark is
ignored; otherwise, when a watermark exists, files whose mtime is `≤`
the watermark are skipped. -/
def filesToIndex (files : List FileEnt) (force : Bool)
    (metaFile : Option Int) : List FileEnt :=
  let last_sync := if force then none else metaFile
  match last_sync with
  | some last => files.filter (fun f => decide (¬ f.mtime ≤ last))
  | none => files

/-- The group loop of `run_index`, with an explicit fuel argument
bounding the iteration count: each iteration consumes 100 files (at
least one), so `files.length` iterations always suffice and the
zero-fuel case below is unreachable for the fuel `processBatches`
supplies. -/
def processLoop (embed : List String → Except String (List (List ℚ))) :
    Nat → List FileEnt → Database → Except String Database
  | _, [], db => .ok db
  | fuel + 1, f :: fs, db =>
    match process_batch ((f :: fs).take 100) db embed with
    | .error e => .error e
    | .ok db' => processLoop embed fuel ((f :: fs).drop 100) db'
  | 0, _ :: _, db => .ok db

/-- The `paths_to_index.chunks(100)` loop of `run_index`: process the
surviving files in groups of 100, aborting the pass on the first group
failure. -/
def processBatches (files : List FileEnt) (db : Database)
    (embed : List String → Except String (List (List ℚ))) :
    Except String Database :=
  processLoop embed files.length files db

/-- `run_index` from `src/index.rs`.  The pair returned is (the pass's
result, the watermark file's content after the pass); `metaFile` is the
watermark file's content before the pass (`none` = absent), and `now`
is the wall-clock value `Utc::now()` returns at `run_index`'s single
clock read, which happens when the new watermark is built after all
groups have been processed and the store saved.  (`db.save()` is the
identity on the in-memory state and is elided.)  On a group failure the
`?` operator propagates before the watermark write, leaving the
watermark file untouched; an empty scan returns before it as well. -/
def run_index (files : List FileEnt) (force : Bool) (metaFile : Option Int)
    (db : Database) (embed : List String → Except String (List (List ℚ)))
    (now : Int) : Except String Database × Option Int :=
  let paths_to_index := filesToIndex files force metaFile
  if paths_to_index.isEmpty then (.ok db, metaFile)
  else
    match processBatches paths_to_index db embed with
    | .error e => (.error e, metaFile)
    | .ok db' => (.ok db', some now)

/-! ## Operation sequences and the store invariant (for claim C1) -/

/-- A completed Vector Store mutation, as named by the spec's invariant:
an `insert` (`Database::insert_chunks`) or a `delete_by_source`
(`Database::delete_by_path`). -/
inductive Op where
  | insert (metas : List ChunkMeta) (vectors : List (List ℚ))
  | deleteBySource (path : String)

/-- Apply one operation to the store. -/
def applyOp (db : Database) : Op → Except String Database
  | .insert metas vectors => db.insert_chunks metas vectors
  | .deleteBySource p => .ok (db.delete_by_path p)

/-- Run a sequence of operations, stopping at the first failure. -/
def runOps (db : Database) : List Op → Except String Database
  | [] => .ok db
  | op :: ops =>
    match applyOp db op with
    | .error e => .error e
    | .ok db' => runOps db' ops

/-- An operation respecting the spec's `insert` precondition
`len(fragments) == len(vectors)`. -/
def wfOp : Op → Prop
  | .insert metas vectors => metas.length = vectors.length
  | .deleteBySource _ => True

/-- The ids present in the metadata table. -/
def idsOf (chunks : List ChunkMeta) : List Nat := chunks.map (fun c => c.id)

/-- The store invariant maintained by the Vector Store: the ANN index
and the metadata table hold the same set of ids, the metadata ids are
pairwise distinct, and every id is below the next assignable id. -/
def Good (db : Database) : Prop :=
  (∀ k, k ∈ db.index.keys ↔ k ∈ idsOf db.chunks) ∧
  (idsOf db.chunks).Nodup ∧
  (∀ c ∈ db.chunks, c.id < db.next_id)

/-- The multiset of scores the ranker computes, among the search
matches, for fragments resolving to a given path (used to state the
"minimum-scoring fragment per path" property of claim C4). -/
def scoresFor (chunks : List ChunkMeta) (query_words : List String)
    («matches» : List (Nat × ℚ)) (p : String) : List ℚ :=
  «matches».filterMap (fun kd =>
    match chunks.find? (fun c => decide (c.id = kd.1)) with
    | none => none
    | some meta =>
      if meta.path = p then
        some (chunkScore query_words (toLowerStr meta.filename) kd.2)
      else none)

/-- Invariant of the ranker's per-path map: paths are pairwise
distinct, every entry holds the minimum score seen for its path, and
every resolvable match already has an entry for its path. -/
def MapOK (chunks : List ChunkMeta) (query_words : List String)
    («matches» : List (Nat × ℚ)) (m : List SearchResult) : Prop :=
  (m.map (fun r => r.path)).Nodup ∧
  (∀ r ∈ m, r.score ∈ scoresFor chunks query_words «matches» r.path ∧
    ∀ s ∈ scoresFor chunks query_words «matches» r.path, r.score ≤ s) ∧
  (∀ kd ∈ «matches», ∀ meta,
    chunks.find? (fun c => decide (c.id = kd.1)) = some meta →
    ∃ r ∈ m, r.path = meta.path)

/-! ## Concrete inputs used by the witness theorems -/

/-- Concrete store for the C8 witness: one fragment under `keep.md`. -/
def dbC8 : Database :=
  ⟨⟨2, [(0, [0, 0])]⟩, [⟨0, "keep.md", "keep", "text", 0⟩], 1⟩

/-- Concrete store for the C7 witness: two fragments with ids 0 and 3,
next assignable id 4. -/
def dbC7 : Database :=
  ⟨⟨1, [(0, [0]), (3, [0])]⟩,
   [⟨0, "a.md", "a", "x", 0⟩, ⟨3, "b.md", "b", "y", 0⟩], 4⟩

/-- Concrete inputs for the C10 witness: an empty store of dimension 1
and two metas paired with a single vector. -/
def dbC10 : Database := ⟨⟨1, []⟩, [], 0⟩

/-- The two metadata rows passed to `insert_chunks` in the C10 witness. -/
def metasC10 : List ChunkMeta :=
  [⟨5, "a.md", "a", "t", 1⟩, ⟨7, "b.md", "b", "u", 2⟩]

/-- Operation sequence for the C1 witness: one insert then one
delete-by-source, starting from a freshly opened empty store. -/
def opsC1 : List Op :=
  [Op.insert [⟨0, "a.md", "a", "t", 0⟩] [List.replicate VECTOR_DIM 0],
   Op.deleteBySource "a.md"]

/-- The store reached by `opsC1` from the empty store. -/
def dbC1 : Database := ⟨⟨VECTOR_DIM, []⟩, [], 1⟩

/-- Embedder stub mapping each text to the zero vector of the
configured dimension (used by the C2 and C9 witnesses). -/
def embedC : List String → Except String (List (List ℚ)) :=
  fun ts => .ok (ts.map (fun _ => List.replicate VECTOR_DIM 0))

/-- Embedder stub that always fails (C2 witness, failing group). -/
def embedFail : List String → Except String (List (List ℚ)) :=
  fun _ => .error "boom"

/-- The C9 witness file: whitespace-only content. -/
def fileC9 : FileEnt := ⟨"a.md", "a", "", "   ", 10⟩

/-- The C9 witness store: one previously indexed fragment of `a.md`. -/
def dbC9 : Database :=
  ⟨⟨VECTOR_DIM, [(0, List.replicate VECTOR_DIM 0)]⟩,
   [⟨0, "a.md", "a", "old", 5⟩], 1⟩

/-- The store left by the C9 witness batch: the emptied file's
fragments are gone. -/
def dbC9' : Database := ⟨⟨VECTOR_DIM, []⟩, [], 1⟩

/-- The C2 witness file: non-empty content, modified at time 10. -/
def fileC2 : FileEnt := ⟨"a.md", "a", "", "hello", 10⟩

/-- A freshly opened empty store (C2 witness). -/
def dbE : Database := ⟨⟨VECTOR_DIM, []⟩, [], 0⟩

/-- The store produced by the successful C2 witness pass. -/
def dbC2' : Database :=
  ⟨⟨VECTOR_DIM, [(0, List.replicate VECTOR_DIM 0)]⟩,
   [⟨0, "a.md", "a", identity_header "a" "" ++ "hello", 10⟩], 1⟩

/-- Embedder stub for the C4 witness: every text embeds to `[0]`. -/
def embedW : List String → Except String (List (List ℚ)) :=
  fun _ => .ok [[0]]

/-- Concrete store for the C4 witness: one fragment, dimension 1. -/
def dbW : Database := ⟨⟨1, [(0, [0])]⟩, [⟨0, "a.md", "a", "t", 0⟩], 1⟩

/-! ## Helper lemmas -/

lemma le_foldl_max (l : List Nat) (a : Nat) : a ≤ l.foldl max a := by
  induction l generalizing a with
  | nil => simp
  | cons b l ih =>
    simp only [List.foldl_cons]
    exact le_trans (le_max_left a b) (ih (max a b))

lemma mem_le_foldl_max (l : List Nat) (a x : Nat) (hx : x ∈ l) :
    x ≤ l.foldl max a := by
  induction l generalizing a with
  | nil => cases hx
  | cons b l ih =>
    simp only [List.foldl_cons]
    rcases List.mem_cons.mp hx with rfl | h
    · exact le_trans (le_max_right a x) (le_foldl_max l _)
    · exact ih _ h

lemma foldl_max_mem (l : List Nat) (a : Nat) :
    l.foldl max a = a ∨ l.foldl max a ∈ l := by
  induction l generalizing a with
  | nil => left; rfl
  | cons b l ih =>
    simp only [List.foldl_cons]
    rcases ih (max a b) with h | h
    · rcases max_choice a b with he | he
      · left; rw [h, he]
      · right; rw [h, he]; exact List.mem_cons_self b l
    · right; exact List.mem_cons_of_mem _ h

lemma lt_nextIdOf (cs : List ChunkMeta) (c : ChunkMeta) (hc : c ∈ cs) :
    c.id < Database.nextIdOf cs := by
  cases cs with
  | nil => cases hc
  | cons d ds =>
    have hval : Database.nextIdOf (d :: ds)
        = (ds.map (fun c => c.id + 1)).foldl max (d.id + 1) := rfl
    rw [hval]
    rcases List.mem_cons.mp hc with rfl | h
    · exact Nat.lt_of_lt_of_le (Nat.lt_succ_self _) (le_foldl_max _ _)
    · exact Nat.lt_of_lt_of_le (Nat.lt_succ_self _)
        (mem_le_foldl_max _ _ _ (List.mem_map_of_mem _ h))

lemma nextIdOf_spec (cs : List ChunkMeta) (h : cs ≠ []) :
    ∃ c ∈ cs, Database.nextIdOf cs = c.id + 1 ∧ ∀ c' ∈ cs, c'.id ≤ c.id := by
  cases cs with
  | nil => exact absurd rfl h
  | cons d ds =>
    have hval : Database.nextIdOf (d :: ds)
        = (ds.map (fun c => c.id + 1)).foldl max (d.id + 1) := rfl
    have hub : ∀ c' ∈ d :: ds,
        c'.id + 1 ≤ (ds.map (fun c => c.id + 1)).foldl max (d.id + 1) := by
      intro c' hc'
      rcases List.mem_cons.mp hc' with rfl | h2
      · exact le_foldl_max _ _
      · exact mem_le_foldl_max _ _ _ (List.mem_map_of_mem _ h2)
    rcases foldl_max_mem (ds.map (fun c => c.id + 1)) (d.id + 1) with he | he
    · refine ⟨d, List.mem_cons_self d ds, by rw [hval, he], ?_⟩
      intro c' hc'
      have := hub c' hc'
      omega
    · obtain ⟨c, hcmem, hceq⟩ := List.mem_map.mp he
      refine ⟨c, List.mem_cons_of_mem _ hcmem, by rw [hval, ← hceq], ?_⟩
      intro c' hc'
      have := hub c' hc'
      omega

/-- Folding `Index.remove` over a list of ids filters out exactly the
entries whose id is in the list. -/
lemma foldl_remove_eq (ids : List Nat) (ix : Index) :
    ids.foldl (fun ix id => ix.remove id) ix
      = ⟨ix.dim, ix.entries.filter (fun e => decide (e.1 ∉ ids))⟩ := by
  induction ids generalizing ix with
  | nil => simp [Index.remove]
  | cons id ids ih =>
    rw [List.foldl_cons, ih]
    simp only [Index.remove]
    congr 1
    rw [List.filter_filter]
    apply List.filter_congr
    intro e _
    by_cases h1 : e.1 = id <;> by_cases h2 : e.1 ∈ ids <;> simp [h1, h2]

/-! ## Claim C8: delete_by_path removes exactly the matching fragments -/

/-- Claim C8: for every path argument, `delete_by_path` removes exactly
the fragments whose path equals the argument from both the metadata
table and the ANN index (it keeps precisely the metadata rows with a
different path, drops precisely the index entries whose id belongs to a
matching row, and leaves `next_id` alone); when zero fragments match it
is a no-op leaving the store unchanged (and it never errors, being a
total function). -/
theorem delete_by_path_exact (db : Database) (p : String) :
    (db.delete_by_path p).chunks = db.chunks.filter (fun c => ¬ (c.path = p)) ∧
    (db.delete_by_path p).index.entries = db.index.entries.filter
      (fun e => e.1 ∉ (db.chunks.filter (fun c => c.path = p)).map (fun c => c.id)) ∧
    (db.delete_by_path p).next_id = db.next_id ∧
    ((∀ c ∈ db.chunks, ¬ (c.path = p)) → db.delete_by_path p = db) := by
  refine ⟨rfl, ?_, rfl, ?_⟩
  · exact congrArg Index.entries (foldl_remove_eq
      ((db.chunks.filter (fun c => c.path = p)).map (fun c => c.id)) db.index)
  · intro h
    have h1 : db.chunks.filter (fun c => decide (c.path = p)) = [] := by
      rw [List.filter_eq_nil_iff]
      intro c hc
      simpa using h c hc
    have h2 : db.chunks.filter (fun c => decide (¬ (c.path = p))) = db.chunks := by
      rw [List.filter_eq_self]
      intro c hc
      simpa using h c hc
    show Database.mk _ _ _ = db
    rw [show ((db.chunks.filter (fun c => decide (c.path = p))).map
          (fun c => c.id)) = [] by rw [h1]; rfl]
    rw [h2]
    rfl

/-- Witness for C8: deleting a path with zero matching fragments is a
no-op on a concrete store. -/
theorem delete_by_path_exact_witness :
    Database.delete_by_path dbC8 "gone.md" = dbC8 :=
  (delete_by_path_exact dbC8 "gone.md").2.2.2 (by decide)

/-! ## Claim C7: save-then-open round trip -/

/-- Claim C7: performing `save` and then `open` on the same location
yields a store whose fragment list and ANN entries (hence ids) are
identical to the pre-save state, and whose next assignable id is one
greater than the maximum id present in the metadata table, zero if the
table is empty. -/
theorem save_open_roundtrip (db : Database) :
    (Database.«open» db.save.1 db.save.2).chunks = db.chunks ∧
    (Database.«open» db.save.1 db.save.2).index.entries = db.index.entries ∧
    (db.chunks = [] → (Database.«open» db.save.1 db.save.2).next_id = 0) ∧
    (db.chunks ≠ [] → ∃ c ∈ db.chunks,
      (Database.«open» db.save.1 db.save.2).next_id = c.id + 1 ∧
      ∀ c' ∈ db.chunks, c'.id ≤ c.id) := by
  refine ⟨rfl, rfl, ?_, ?_⟩
  · intro h
    show Database.nextIdOf db.chunks = 0
    rw [h]
    rfl
  · intro h
    exact nextIdOf_spec db.chunks h

/-- Witness for C7: the reopened concrete store keeps its fragments and
recomputes the next id as max id + 1. -/
theorem save_open_roundtrip_witness :
    (Database.«open» dbC7.save.1 dbC7.save.2).chunks = dbC7.chunks ∧
    ∃ c ∈ dbC7.chunks,
      (Database.«open» dbC7.save.1 dbC7.save.2).next_id = c.id + 1 ∧
      ∀ c' ∈ dbC7.chunks, c'.id ≤ c.id :=
  ⟨(save_open_roundtrip dbC7).1, (save_open_roundtrip dbC7).2.2.2 (by decide)⟩

/-! ## The insert loop (`Database::insert_chunks`) -/

/-- A successful `Index.add` appends the entry and certifies that the
vector had the right dimension and the key was fresh. -/
lemma add_ok_spec (ix : Index) (key : Nat) (vec : List ℚ) (ix' : Index)
    (h : ix.add key vec = .ok ix') :
    ix' = ⟨ix.dim, ix.entries ++ [(key, vec)]⟩ ∧
      vec.length = ix.dim ∧ key ∉ ix.keys := by
  unfold Index.add at h
  split at h
  · cases h
  · split at h
    · cases h
    · cases h
      next h1 h2 => exact ⟨rfl, not_not.mp h1, h2⟩

/-- `Index.add` succeeds on a fresh key and a well-dimensioned vector. -/
lemma add_ok_of (ix : Index) (key : Nat) (vec : List ℚ)
    (hdim : vec.length = ix.dim) (hkey : key ∉ ix.keys) :
    ix.add key vec = .ok ⟨ix.dim, ix.entries ++ [(key, vec)]⟩ := by
  unfold Index.add
  rw [if_neg (by simpa using hdim), if_neg hkey]

/-- Characterization of a successful `assignLoop` run: the first
`min n m` metas get the sequential ids `next_id, next_id+1, …`, their
vectors are appended to the index under those ids, the remaining metas
are untouched, and the id counter advances by `min n m`. -/
lemma assignLoop_ok (metas : List ChunkMeta) (vectors : List (List ℚ))
    (nid : Nat) (ix : Index) (metas' : List ChunkMeta) (nid' : Nat) (ix' : Index)
    (h : Database.assignLoop metas vectors nid ix = .ok (metas', nid', ix')) :
    metas' = (List.zipWith (fun m i => {m with id := i}) metas
        (List.range' nid (min metas.length vectors.length))) ++
        metas.drop (min metas.length vectors.length) ∧
    nid' = nid + min metas.length vectors.length ∧
    ix'.dim = ix.dim ∧
    ix'.entries = ix.entries ++
      List.zip (List.range' nid (min metas.length vectors.length))
        (vectors.take (min metas.length vectors.length)) := by
  induction metas generalizing vectors nid ix metas' nid' ix' with
  | nil =>
    simp only [Database.assignLoop] at h
    cases h
    simp
  | cons m ms ih =>
    cases vectors with
    | nil =>
      simp only [Database.assignLoop] at h
      cases h
      simp
    | cons v vs =>
      simp only [Database.assignLoop] at h
      cases hadd : ix.add nid v with
      | error e =>
        simp only [hadd] at h
        cases h
      | ok ix1 =>
        simp only [hadd] at h
        cases hrec : Database.assignLoop ms vs (nid + 1) ix1 with
        | error e =>
          simp only [hrec] at h
          cases h
        | ok out =>
          obtain ⟨ms', nid2, ix2⟩ := out
          simp only [hrec] at h
          injection h with h1
          injection h1 with ha h2
          injection h2 with hb hc
          subst ha
          subst hb
          subst hc
          obtain ⟨hix1, _, _⟩ := add_ok_spec ix nid v ix1 hadd
          obtain ⟨g1, g2, g3, g4⟩ := ih vs (nid + 1) ix1 ms' nid2 ix2 hrec
          subst hix1
          have hmin : min (m :: ms).length (v :: vs).length
              = min ms.length vs.length + 1 := by
            simp [Nat.succ_min_succ]
          refine ⟨?_, ?_, ?_, ?_⟩
          · rw [hmin, List.range'_succ, List.zipWith_cons_cons, g1]
            simp
          · rw [hmin]
            omega
          · rw [g3]
          · rw [g4, hmin, List.range'_succ]
            simp [List.zip_cons_cons]

/-- `assignLoop` succeeds whenever the zipped vectors have the index's
dimension and every id already in the index is below the id counter. -/
lemma assignLoop_succeeds (metas : List ChunkMeta) (vectors : List (List ℚ))
    (nid : Nat) (ix : Index)
    (hdim : ∀ v ∈ vectors.take metas.length, v.length = ix.dim)
    (hfresh : ∀ k ∈ ix.keys, k < nid) :
    ∃ out, Database.assignLoop metas vectors nid ix = .ok out := by
  induction metas generalizing vectors nid ix with
  | nil => exact ⟨_, rfl⟩
  | cons m ms ih =>
    cases vectors with
    | nil => exact ⟨_, rfl⟩
    | cons v vs =>
      have hv : v.length = ix.dim := by
        apply hdim
        simp [List.take_cons]
      have hk : nid ∉ ix.keys := fun hmem => absurd (hfresh nid hmem) (lt_irrefl nid)
      have hadd := add_ok_of ix nid v hv hk
      have hdim' : ∀ v' ∈ vs.take ms.length, v'.length =
          (Index.mk ix.dim (ix.entries ++ [(nid, v)])).dim := by
        intro v' hv'
        apply hdim
        simp [List.take_cons]
        right
        exact hv'
      have hfresh' : ∀ k ∈ (Index.mk ix.dim (ix.entries ++ [(nid, v)])).keys,
          k < nid + 1 := by
        intro k hkmem
        simp only [Index.keys, List.map_append, List.mem_append] at hkmem
        rcases hkmem with hkmem | hkmem
        · exact Nat.lt_succ_of_lt (hfresh k hkmem)
        · simp at hkmem
          omega
      obtain ⟨out, hout⟩ := ih vs (nid + 1) _ hdim' hfresh'
      obtain ⟨ms', nid', ix'⟩ := out
      refine ⟨({m with id := nid} :: ms', nid', ix'), ?_⟩
      simp only [Database.assignLoop, hadd, hout]

/-! ## Claim C10: insert_chunks with mismatched lengths -/

/-- Claim C10: a call to `insert_chunks` whose fragment count differs
from its vector count still completes successfully (given vectors of
the store's dimension and a store whose index ids are below `next_id`,
both true of every store the program builds): ids and index entries
are created only for the first `min n m` fragment/vector pairs, while
all `n` fragments are appended to the metadata table — the excess
fragments receive no vector and keep their caller-supplied id. -/
theorem insert_chunks_length_mismatch (db : Database) (metas : List ChunkMeta)
    (vectors : List (List ℚ))
    (hdim : ∀ v ∈ vectors.take metas.length, v.length = db.index.dim)
    (hfresh : ∀ k ∈ db.index.keys, k < db.next_id) :
    ∃ db', db.insert_chunks metas vectors = .ok db' ∧
      db'.chunks = db.chunks ++
        ((List.zipWith (fun m i => {m with id := i}) metas
          (List.range' db.next_id (min metas.length vectors.length))) ++
         metas.drop (min metas.length vectors.length)) ∧
      db'.index.entries = db.index.entries ++
        List.zip (List.range' db.next_id (min metas.length vectors.length))
          (vectors.take (min metas.length vectors.length)) ∧
      db'.next_id = db.next_id + min metas.length vectors.length := by
  obtain ⟨out, hok⟩ :=
    assignLoop_succeeds metas vectors db.next_id db.index hdim hfresh
  obtain ⟨metas', nid', ix'⟩ := out
  obtain ⟨h1, h2, h3, h4⟩ := assignLoop_ok _ _ _ _ _ _ _ hok
  refine ⟨⟨ix', db.chunks ++ metas', nid'⟩, ?_, ?_, h4, h2⟩
  · simp only [Database.insert_chunks, hok]
  · rw [h1]

/-- Witness for C10: on a concrete store, inserting two fragments with
only one vector succeeds; the first fragment gets id 0 and an index
entry, the second is appended with its caller-supplied id 7 and no
vector. -/
theorem insert_chunks_length_mismatch_witness :
    ∃ db', Database.insert_chunks dbC10 metasC10 [[0]] = .ok db' ∧
      db'.chunks = [⟨0, "a.md", "a", "t", 1⟩, ⟨7, "b.md", "b", "u", 2⟩] ∧
      db'.index.entries = [(0, [0])] ∧
      db'.next_id = 1 :=
  insert_chunks_length_mismatch dbC10 metasC10 [[0]] (by decide) (by decide)

/-! ## Claim C5: the filename boost -/

/-- A string has at least as many UTF-8 bytes as characters. -/
lemma length_le_byteLen (s : String) : s.length ≤ byteLen s := by
  show s.data.length ≤ (s.data.map Char.utf8Size).sum
  induction s.data with
  | nil => simp
  | cons c cs ih =>
    simp only [List.length_cons, List.map_cons, List.sum_cons]
    have := Char.utf8Size_pos c
    omega

/-- Claim C5: if some whitespace-delimited lowercased query token longer
than 2 characters is a substring of the fragment's lowercased display
name, exactly 0.7 is subtracted from its raw-distance score, and such a
fragment scores strictly lower (better) than an otherwise-identical
fragment whose display name matches no token. -/
theorem filename_boost (query : String) (filename other : String) (d : ℚ)
    (w : String)
    (hw : w ∈ queryWords query)
    (hlen : 2 < w.length)
    (hsub : isSubstr w (toLowerStr filename) = true)
    (hno : ((queryWords query).any (fun word =>
        decide (2 < byteLen word) && isSubstr word (toLowerStr other))) = false) :
    chunkScore (queryWords query) (toLowerStr filename) d = d - 7/10 ∧
    chunkScore (queryWords query) (toLowerStr filename) d
      < chunkScore (queryWords query) (toLowerStr other) d := by
  have hblen : 2 < byteLen w := lt_of_lt_of_le hlen (length_le_byteLen w)
  have hcond : ((queryWords query).any (fun word =>
      decide (2 < byteLen word) && isSubstr word (toLowerStr filename))) = true := by
    rw [List.any_eq_true]
    refine ⟨w, hw, ?_⟩
    rw [hsub, decide_eq_true hblen]
    rfl
  have h1 : chunkScore (queryWords query) (toLowerStr filename) d = d - 7/10 := by
    simp [chunkScore, hcond]
  have h2 : chunkScore (queryWords query) (toLowerStr other) d = d := by
    simp [chunkScore, hno]
  refine ⟨h1, ?_⟩
  rw [h1, h2]
  linarith

/-- Witness for C5: the query token "apple" (from query "Apple pie")
matches display name "my-apples" and boosts its score by exactly 0.7,
ranking it strictly better than the unmatched name "notes". -/
theorem filename_boost_witness :
    chunkScore (queryWords "Apple pie") (toLowerStr "my-apples") 1
        = 1 - 7/10 ∧
    chunkScore (queryWords "Apple pie") (toLowerStr "my-apples") 1
        < chunkScore (queryWords "Apple pie") (toLowerStr "notes") 1 :=
  filename_boost "Apple pie" "my-apples" "notes" 1 "apple"
    (by decide) (by decide) (by decide) (by decide)

/-! ## Claim C6: the search contract -/

lemma mem_insertByDist (x y : Nat × ℚ) (l : List (Nat × ℚ)) :
    y ∈ Index.insertByDist x l ↔ y = x ∨ y ∈ l := by
  induction l with
  | nil => simp [Index.insertByDist]
  | cons z zs ih =>
    by_cases h : x.2 ≤ z.2
    · simp [Index.insertByDist, h, List.mem_cons]
    · simp only [Index.insertByDist, if_neg h, List.mem_cons, ih]
      tauto

lemma insertByDist_sorted (x : Nat × ℚ) (l : List (Nat × ℚ))
    (h : List.Pairwise (fun a b => a.2 ≤ b.2) l) :
    List.Pairwise (fun a b => a.2 ≤ b.2) (Index.insertByDist x l) := by
  induction l with
  | nil => simp [Index.insertByDist]
  | cons z zs ih =>
    rw [List.pairwise_cons] at h
    obtain ⟨hz, hzs⟩ := h
    by_cases hle : x.2 ≤ z.2
    · rw [Index.insertByDist, if_pos hle, List.pairwise_cons]
      refine ⟨?_, List.pairwise_cons.mpr ⟨hz, hzs⟩⟩
      intro a ha
      rcases List.mem_cons.mp ha with rfl | ha
      · exact hle
      · exact le_trans hle (hz a ha)
    · rw [Index.insertByDist, if_neg hle, List.pairwise_cons]
      refine ⟨?_, ih hzs⟩
      intro a ha
      rcases (mem_insertByDist x a zs).mp ha with rfl | ha
      · exact le_of_lt (lt_of_not_le hle)
      · exact hz a ha

lemma sortByDist_sorted (l : List (Nat × ℚ)) :
    List.Pairwise (fun a b => a.2 ≤ b.2) (Index.sortByDist l) := by
  induction l with
  | nil => simp [Index.sortByDist]
  | cons x xs ih => exact insertByDist_sorted x _ ih

/-- Claim C6: the Vector Store's search fails on an empty store, fails
on a query whose dimension differs from the configured dimension, and
on success returns at most `limit` (id, distance) pairs sorted
ascending by distance. -/
theorem search_contract (db : Database) (q : List ℚ) (limit : Nat) :
    (db.index.entries = [] → db.search q limit = .error "empty index") ∧
    (db.index.entries ≠ [] → q.length ≠ db.index.dim →
      db.search q limit = .error "dimension mismatch") ∧
    (∀ res, db.search q limit = .ok res →
      res.length ≤ limit ∧ List.Pairwise (fun a b => a.2 ≤ b.2) res) := by
  refine ⟨?_, ?_, ?_⟩
  · intro h
    simp [Database.search, Index.search, h]
  · intro hne hdim
    simp [Database.search, Index.search, List.isEmpty_iff, hne, hdim]
  · intro res hres
    unfold Database.search Index.search at hres
    split at hres
    · cases hres
    · split at hres
      · cases hres
      · cases hres
        exact ⟨List.length_take_le limit _,
          List.Pairwise.sublist (List.take_sublist _ _) (sortByDist_sorted _)⟩

/-- Witness for C6: searching a concrete empty store errors out. -/
theorem search_contract_witness :
    Database.search ⟨⟨2, []⟩, [], 0⟩ [0, 0] 5 = .error "empty index" :=
  (search_contract ⟨⟨2, []⟩, [], 0⟩ [0, 0] 5).1 rfl

/-! ## Claim C3: the fragmenter's window structure -/

/-- One unfolding of the chunk loop when the window reaches the end of
the text. -/
lemma chunkLoop_single (c : Chunker) (chars : List Char) (f start : Nat)
    (hstart : start < chars.length)
    (hend : chars.length ≤ start + c.chunk_size) :
    c.chunkLoop chars (f + 1) start
      = [(chars.drop start).take (chars.length - start)] := by
  simp only [Chunker.chunkLoop]
  rw [if_pos hstart]
  have hmin : min (start + c.chunk_size) chars.length = chars.length :=
    min_eq_right hend
  rw [hmin, if_pos rfl]

/-- One unfolding of the chunk loop when the window stops short of the
end of the text. -/
lemma chunkLoop_step (c : Chunker) (chars : List Char) (f start : Nat)
    (hlt : start + c.chunk_size < chars.length) :
    c.chunkLoop chars (f + 1) start
      = ((chars.drop start).take c.chunk_size)
        :: c.chunkLoop chars f (start + (c.chunk_size - c.chunk_overlap)) := by
  have hstart : start < chars.length := by omega
  simp only [Chunker.chunkLoop]
  rw [if_pos hstart]
  have hmin : min (start + c.chunk_size) chars.length = start + c.chunk_size :=
    min_eq_left (le_of_lt hlt)
  rw [hmin, if_neg (by omega)]
  congr 2
  omega

/-- The chunk loop emits at least one window when started inside the
text with positive fuel. -/
lemma chunkLoop_pos (c : Chunker) (chars : List Char) (f start : Nat)
    (hstart : start < chars.length) :
    1 ≤ (c.chunkLoop chars (f + 1) start).length := by
  by_cases hend : chars.length ≤ start + c.chunk_size
  · rw [chunkLoop_single c chars f start hstart hend]
    simp
  · rw [chunkLoop_step c chars f start (by omega)]
    simp

/-- Window count of the chunk loop: one window when the remaining text
fits, otherwise the ceiling formula. -/
lemma chunkLoop_length (c : Chunker) (chars : List Char)
    (h : c.chunk_overlap < c.chunk_size) :
    ∀ fuel start, chars.length - start ≤ fuel → start < chars.length →
      (c.chunkLoop chars fuel start).length =
        if chars.length ≤ start + c.chunk_size then 1
        else (chars.length - start - c.chunk_overlap
          + (c.chunk_size - c.chunk_overlap) - 1)
          / (c.chunk_size - c.chunk_overlap) := by
  intro fuel
  induction fuel with
  | zero => intro start hfuel hstart; omega
  | succ f ih =>
    intro start hfuel hstart
    by_cases hend : chars.length ≤ start + c.chunk_size
    · rw [chunkLoop_single c chars f start hstart hend, if_pos hend]
      rfl
    · rw [chunkLoop_step c chars f start (by omega), if_neg hend]
      have hs : 0 < c.chunk_size - c.chunk_overlap := by omega
      have hstart' : start + (c.chunk_size - c.chunk_overlap) < chars.length := by
        omega
      have hfuel' : chars.length - (start + (c.chunk_size - c.chunk_overlap)) ≤ f := by
        omega
      rw [List.length_cons, ih _ hfuel' hstart']
      by_cases hend2 : chars.length ≤ start + (c.chunk_size - c.chunk_overlap)
          + c.chunk_size
      · rw [if_pos hend2]
        refine Eq.symm (Nat.div_eq_of_lt_le ?_ ?_) <;> omega
      · rw [if_neg hend2]
        have hy : chars.length - start - c.chunk_overlap
              + (c.chunk_size - c.chunk_overlap) - 1
            = (chars.length - (start + (c.chunk_size - c.chunk_overlap))
                - c.chunk_overlap + (c.chunk_size - c.chunk_overlap) - 1)
              + (c.chunk_size - c.chunk_overlap) := by
          omega
        rw [hy, Nat.add_div_right _ hs]

/-- The k-th window of the chunk loop starts `k * (W - V)` characters
after the loop's starting offset and spans `W` characters (clipped at
the end of the text). -/
lemma chunkLoop_getElem (c : Chunker) (chars : List Char)
    (h : c.chunk_overlap < c.chunk_size) :
    ∀ fuel start, chars.length - start ≤ fuel → start < chars.length →
      ∀ k, k < (c.chunkLoop chars fuel start).length →
        (c.chunkLoop chars fuel start)[k]? =
          some ((chars.drop (start + k * (c.chunk_size - c.chunk_overlap))).take
            c.chunk_size) := by
  intro fuel
  induction fuel with
  | zero => intro start hfuel hstart; omega
  | succ f ih =>
    intro start hfuel hstart k hk
    by_cases hend : chars.length ≤ start + c.chunk_size
    · rw [chunkLoop_single c chars f start hstart hend] at hk ⊢
      simp only [List.length_singleton] at hk
      interval_cases k
      have hlen : (chars.drop start).length = chars.length - start :=
        List.length_drop start chars
      have h1 : (chars.drop start).take (chars.length - start) = chars.drop start :=
        List.take_of_length_le (le_of_eq hlen)
      have h2 : (chars.drop start).take c.chunk_size = chars.drop start :=
        List.take_of_length_le (by omega)
      simp [h1, h2]
    · rw [chunkLoop_step c chars f start (by omega)] at hk ⊢
      cases k with
      | zero => simp
      | succ j =>
        have hstart' : start + (c.chunk_size - c.chunk_overlap) < chars.length := by
          omega
        have hfuel' : chars.length - (start + (c.chunk_size - c.chunk_overlap)) ≤ f := by
          omega
        simp only [List.length_cons] at hk
        rw [List.getElem?_cons_succ, ih _ hfuel' hstart' j (by omega)]
        have harith : start + (c.chunk_size - c.chunk_overlap)
            + j * (c.chunk_size - c.chunk_overlap)
            = start + (j + 1) * (c.chunk_size - c.chunk_overlap) := by ring
        rw [harith]

/-- The last window of the chunk loop reaches the end of the text. -/
lemma chunkLoop_covers_end (c : Chunker) (chars : List Char)
    (h : c.chunk_overlap < c.chunk_size) :
    ∀ fuel start, chars.length - start ≤ fuel → start < chars.length →
      chars.length ≤ start + ((c.chunkLoop chars fuel start).length - 1)
        * (c.chunk_size - c.chunk_overlap) + c.chunk_size := by
  intro fuel
  induction fuel with
  | zero => intro start hfuel hstart; omega
  | succ f ih =>
    intro start hfuel hstart
    by_cases hend : chars.length ≤ start + c.chunk_size
    · rw [chunkLoop_single c chars f start hstart hend]
      simpa using hend
    · rw [chunkLoop_step c chars f start (by omega)]
      have hstart' : start + (c.chunk_size - c.chunk_overlap) < chars.length := by
        omega
      have hfuel' : chars.length - (start + (c.chunk_size - c.chunk_overlap)) ≤ f := by
        omega
      have hrec := ih _ hfuel' hstart'
      have hpos : 1 ≤ (c.chunkLoop chars f (start
          + (c.chunk_size - c.chunk_overlap))).length := by
        cases f with
        | zero => omega
        | succ f' => exact chunkLoop_pos c chars f' _ hstart'
      rw [List.length_cons]
      generalize hg : (c.chunkLoop chars f
          (start + (c.chunk_size - c.chunk_overlap))).length = n' at hrec hpos ⊢
      have hexp : (n' + 1 - 1) * (c.chunk_size - c.chunk_overlap)
          = (n' - 1) * (c.chunk_size - c.chunk_overlap)
            + (c.chunk_size - c.chunk_overlap) := by
        cases n' with
        | zero => omega
        | succ m => simp [Nat.succ_sub_one, Nat.succ_mul]
      omega

/-- Claim C3: for every text and parameters `W = chunk_size`,
`V = chunk_overlap` with `V < W` (lengths in Unicode code points):
empty text yields zero windows; text of length `0 < L ≤ W` yields
exactly one window equal to the whole text; text of length `L > W`
yields `ceil((L - V) / (W - V))` windows; successive windows start
`W - V` code points apart (window `k` starts at `k * (W - V)` and spans
`W` code points, clipped at the end); and every character position of
the text is covered by some window. -/
theorem chunker_windows (c : Chunker) (t : String)
    (h : c.chunk_overlap < c.chunk_size) :
    (t.data.length = 0 → c.chunk t = []) ∧
    (0 < t.data.length → t.data.length ≤ c.chunk_size → c.chunk t = [t]) ∧
    (c.chunk_size < t.data.length →
      (c.chunk t).length =
        (t.data.length - c.chunk_overlap + (c.chunk_size - c.chunk_overlap) - 1)
          / (c.chunk_size - c.chunk_overlap)) ∧
    (∀ k, k < (c.chunk t).length →
      (c.chunk t)[k]? = some (String.mk
        ((t.data.drop (k * (c.chunk_size - c.chunk_overlap))).take c.chunk_size))) ∧
    (∀ i, i < t.data.length → ∃ k, k < (c.chunk t).length ∧
      k * (c.chunk_size - c.chunk_overlap) ≤ i ∧
      i < k * (c.chunk_size - c.chunk_overlap) + c.chunk_size) := by
  by_cases hL : t.data.length = 0
  · have hnil : t.data = [] := List.length_eq_zero.mp hL
    have hchunk : c.chunk t = [] := by
      simp [Chunker.chunk, hnil]
    refine ⟨fun _ => hchunk, ?_, ?_, ?_, ?_⟩
    · intro h1 _; omega
    · intro h1; omega
    · intro k hk; rw [hchunk] at hk; simp at hk
    · intro i hi; omega
  · have hpos : 0 < t.data.length := Nat.pos_of_ne_zero hL
    have hne : t.data.isEmpty = false := by
      cases hd : t.data with
      | nil => rw [hd] at hL; simp at hL
      | cons a l => rfl
    have hchunk : c.chunk t
        = (c.chunkLoop t.data t.data.length 0).map String.mk := by
      simp [Chunker.chunk, hne]
    have hfuel : t.data.length - 0 ≤ t.data.length := by omega
    have hlen := chunkLoop_length c t.data h t.data.length 0 hfuel hpos
    have hget := chunkLoop_getElem c t.data h t.data.length 0 hfuel hpos
    have hcover := chunkLoop_covers_end c t.data h t.data.length 0 hfuel hpos
    have hmaplen : (c.chunk t).length = (c.chunkLoop t.data t.data.length 0).length := by
      rw [hchunk, List.length_map]
    refine ⟨fun h0 => absurd h0 hL, ?_, ?_, ?_, ?_⟩
    · intro _ hle
      have h1 : (c.chunkLoop t.data t.data.length 0).length = 1 := by
        rw [hlen, if_pos (by omega)]
      obtain ⟨w, hw⟩ := List.length_eq_one.mp h1
      have hw0 := hget 0 (by omega)
      rw [hw] at hw0
      simp only [List.getElem?_cons_zero, Option.some.injEq] at hw0
      have htake : (t.data.drop (0 + 0 * (c.chunk_size - c.chunk_overlap))).take
          c.chunk_size = t.data := by
        simp only [Nat.zero_mul, Nat.add_zero, List.drop_zero]
        exact List.take_of_length_le hle
      rw [hchunk, hw, hw0]
      simp only [List.map_cons, List.map_nil]
      rw [htake]
    · intro hgt
      rw [hmaplen, hlen, if_neg (by omega)]
      simp only [Nat.sub_zero]
    · intro k hk
      rw [hchunk, List.getElem?_map, hget k (by rw [← hmaplen]; exact hk)]
      simp [Nat.zero_add]
    · intro i hi
      have hn1 : 1 ≤ (c.chunk t).length := by
        rw [hmaplen]
        cases hf : t.data.length with
        | zero => omega
        | succ f' => exact chunkLoop_pos c t.data f' 0 hpos
      by_cases hle : t.data.length ≤ c.chunk_size
      · exact ⟨0, by omega, by simp, by simpa using lt_of_lt_of_le hi hle⟩
      · have hs : 0 < c.chunk_size - c.chunk_overlap := by omega
        set s := c.chunk_size - c.chunk_overlap with hsdef
        set n := (c.chunk t).length with hndef
        have hcover' : t.data.length ≤ (n - 1) * s + c.chunk_size := by
          have := hcover
          rw [← hmaplen] at this
          simpa using this
        have hdm := Nat.div_add_mod i s
        have hmod := Nat.mod_lt i hs
        by_cases hq : i / s ≤ n - 1
        · refine ⟨i / s, by omega, Nat.div_mul_le_self i s, ?_⟩
          have h1 : i < s * (i / s) + s := by omega
          have h2 : i / s * s + s ≤ i / s * s + c.chunk_size := by
            have : s ≤ c.chunk_size := Nat.sub_le _ _
            omega
          calc i < s * (i / s) + s := h1
            _ = i / s * s + s := by ring_nf
            _ ≤ i / s * s + c.chunk_size := h2
        · refine ⟨n - 1, by omega, ?_, by omega⟩
          have h1 : (n - 1) * s ≤ (i / s) * s :=
            Nat.mul_le_mul_right s (by omega)
          have h2 : (i / s) * s ≤ i := Nat.div_mul_le_self i s
          omega

/-- Witness for C3: the chunker with window 3 and overlap 1 splits the
five-character text "abcde" into the expected overlapping windows. -/
theorem chunker_windows_witness :
    ((Chunker.mk 3 1).chunk "abcde" = [] → False) ∧
    ((Chunker.mk 3 1).chunk "abcde").length = (5 - 1 + (3 - 1) - 1) / (3 - 1) :=
  ⟨fun hcontra => by
    have := (chunker_windows (Chunker.mk 3 1) "abcde" (by decide)).2.2.1 (by decide)
    rw [hcontra] at this
    simp at this,
   (chunker_windows (Chunker.mk 3 1) "abcde" (by decide)).2.2.1 (by decide)⟩

/-! ## Claim C4: shape of the ranker's output -/

lemma mem_insertByScore (x y : SearchResult) (l : List SearchResult) :
    y ∈ insertByScore x l ↔ y = x ∨ y ∈ l := by
  induction l with
  | nil => simp [insertByScore]
  | cons z zs ih =>
    by_cases h : x.score ≤ z.score
    · simp [insertByScore, h, List.mem_cons]
    · simp only [insertByScore, if_neg h, List.mem_cons, ih]
      tauto

lemma insertByScore_perm (x : SearchResult) (l : List SearchResult) :
    (insertByScore x l).Perm (x :: l) := by
  induction l with
  | nil => simp [insertByScore]
  | cons z zs ih =>
    by_cases h : x.score ≤ z.score
    · rw [insertByScore, if_pos h]
    · rw [insertByScore, if_neg h]
      exact List.Perm.trans (List.Perm.cons z ih) (List.Perm.swap x z zs)

lemma sortByScore_perm (l : List SearchResult) : (sortByScore l).Perm l := by
  induction l with
  | nil => simp [sortByScore]
  | cons x xs ih =>
    exact List.Perm.trans (insertByScore_perm x (sortByScore xs))
      (List.Perm.cons x ih)

lemma insertByScore_sorted (x : SearchResult) (l : List SearchResult)
    (h : List.Pairwise (fun a b => a.score ≤ b.score) l) :
    List.Pairwise (fun a b => a.score ≤ b.score) (insertByScore x l) := by
  induction l with
  | nil => simp [insertByScore]
  | cons z zs ih =>
    rw [List.pairwise_cons] at h
    obtain ⟨hz, hzs⟩ := h
    by_cases hle : x.score ≤ z.score
    · rw [insertByScore, if_pos hle, List.pairwise_cons]
      refine ⟨?_, List.pairwise_cons.mpr ⟨hz, hzs⟩⟩
      intro a ha
      rcases List.mem_cons.mp ha with rfl | ha
      · exact hle
      · exact le_trans hle (hz a ha)
    · rw [insertByScore, if_neg hle, List.pairwise_cons]
      refine ⟨?_, ih hzs⟩
      intro a ha
      rcases (mem_insertByScore x a zs).mp ha with rfl | ha
      · exact le_of_lt (lt_of_not_le hle)
      · exact hz a ha

lemma sortByScore_sorted (l : List SearchResult) :
    List.Pairwise (fun a b => a.score ≤ b.score) (sortByScore l) := by
  induction l with
  | nil => simp [sortByScore]
  | cons x xs ih => exact insertByScore_sorted x _ ih

lemma scoresFor_append (chunks : List ChunkMeta) (qws : List String)
    (ms1 ms2 : List (Nat × ℚ)) (p : String) :
    scoresFor chunks qws (ms1 ++ ms2) p
      = scoresFor chunks qws ms1 p ++ scoresFor chunks qws ms2 p :=
  List.filterMap_append ms1 ms2 _

lemma mem_scoresFor (chunks : List ChunkMeta) (qws : List String)
    (ms : List (Nat × ℚ)) (p : String) (s : ℚ)
    (hs : s ∈ scoresFor chunks qws ms p) :
    ∃ kd ∈ ms, ∃ meta, chunks.find? (fun c => decide (c.id = kd.1)) = some meta ∧
      meta.path = p ∧ s = chunkScore qws (toLowerStr meta.filename) kd.2 := by
  rw [scoresFor, List.mem_filterMap] at hs
  obtain ⟨kd, hkd, hval⟩ := hs
  refine ⟨kd, hkd, ?_⟩
  cases hfind : chunks.find? (fun c => decide (c.id = kd.1)) with
  | none =>
    rw [hfind] at hval
    have hval' : (none : Option ℚ) = some s := hval
    cases hval'
  | some meta =>
    rw [hfind] at hval
    have hval' : (if meta.path = p then
        some (chunkScore qws (toLowerStr meta.filename) kd.2) else none)
        = some s := hval
    by_cases hp : meta.path = p
    · rw [if_pos hp] at hval'
      refine ⟨meta, rfl, hp, ?_⟩
      injection hval' with h'
      exact h'.symm
    · rw [if_neg hp] at hval'
      cases hval'

/-- The single-match contribution to `scoresFor` when the id resolves
to no metadata row. -/
lemma scoresFor_single_none (chunks : List ChunkMeta) (qws : List String)
    (kd : Nat × ℚ) (p : String)
    (hfind : chunks.find? (fun c => decide (c.id = kd.1)) = none) :
    scoresFor chunks qws [kd] p = [] := by
  simp [scoresFor, List.filterMap_cons, hfind]

/-- The single-match contribution to `scoresFor` when the id resolves
to a metadata row. -/
lemma scoresFor_single_some (chunks : List ChunkMeta) (qws : List String)
    (kd : Nat × ℚ) (p : String) (meta : ChunkMeta)
    (hfind : chunks.find? (fun c => decide (c.id = kd.1)) = some meta) :
    scoresFor chunks qws [kd] p
      = if meta.path = p then
          [chunkScore qws (toLowerStr meta.filename) kd.2]
        else [] := by
  by_cases hp : meta.path = p
  · simp [scoresFor, List.filterMap_cons, hfind, hp]
  · simp [scoresFor, List.filterMap_cons, hfind, hp]

/-- `fmInsert` on an absent path appends a fresh entry. -/
lemma fmInsert_of_none (m : List SearchResult) (p : String) (s : ℚ)
    (hf : m.find? (fun r => decide (r.path = p)) = none) :
    fmInsert m p s = m ++ [⟨p, s⟩] := by
  simp [fmInsert, hf]

/-- `fmInsert` replaces the path's entry when the new score is lower. -/
lemma fmInsert_of_some_lt (m : List SearchResult) (p : String) (s : ℚ)
    (r0 : SearchResult)
    (hf : m.find? (fun r => decide (r.path = p)) = some r0)
    (hlt : s < r0.score) :
    fmInsert m p s = m.map (fun q => if q.path = p then ⟨p, s⟩ else q) := by
  simp [fmInsert, hf, hlt]

/-- `fmInsert` keeps the map unchanged when the new score is not lower. -/
lemma fmInsert_of_some_ge (m : List SearchResult) (p : String) (s : ℚ)
    (r0 : SearchResult)
    (hf : m.find? (fun r => decide (r.path = p)) = some r0)
    (hge : ¬ s < r0.score) :
    fmInsert m p s = m := by
  simp [fmInsert, hf, hge]

/-- One step of the ranker's match loop preserves the per-path map
invariant. -/
lemma mapOK_step (chunks : List ChunkMeta) (qws : List String)
    (ms : List (Nat × ℚ)) (m : List SearchResult) (kd : Nat × ℚ)
    (h : MapOK chunks qws ms m) :
    MapOK chunks qws (ms ++ [kd])
      (match chunks.find? (fun c => decide (c.id = kd.1)) with
       | none => m
       | some meta =>
         fmInsert m meta.path (chunkScore qws (toLowerStr meta.filename) kd.2)) := by
  obtain ⟨hnd, hmin, hcomp⟩ := h
  cases hfind : chunks.find? (fun c => decide (c.id = kd.1)) with
  | none =>
    refine ⟨hnd, ?_, ?_⟩
    · intro r hr
      have hsc : scoresFor chunks qws (ms ++ [kd]) r.path
          = scoresFor chunks qws ms r.path := by
        rw [scoresFor_append, scoresFor_single_none chunks qws kd r.path hfind,
          List.append_nil]
      rw [hsc]
      exact hmin r hr
    · intro kd' hkd' meta hmeta
      rcases List.mem_append.mp hkd' with hmem | hmem
      · exact hcomp kd' hmem meta hmeta
      · have hkk : kd' = kd := by simpa using hmem
        subst hkk
        rw [hfind] at hmeta
        cases hmeta
  | some meta =>
    have hscP : ∀ q : String, scoresFor chunks qws (ms ++ [kd]) q
        = scoresFor chunks qws ms q
          ++ (if meta.path = q then
              [chunkScore qws (toLowerStr meta.filename) kd.2] else []) := by
      intro q
      rw [scoresFor_append, scoresFor_single_some chunks qws kd q meta hfind]
    show MapOK chunks qws (ms ++ [kd])
      (fmInsert m meta.path (chunkScore qws (toLowerStr meta.filename) kd.2))
    cases hf2 : m.find? (fun r => decide (r.path = meta.path)) with
    | none =>
      have habs : ∀ r ∈ m, ¬ (r.path = meta.path) := by
        intro r hr
        have := List.find?_eq_none.mp hf2 r hr
        simpa using this
      rw [fmInsert_of_none m meta.path _ hf2]
      refine ⟨?_, ?_, ?_⟩
      · rw [List.map_append]
        rw [List.nodup_append]
        refine ⟨hnd, by simp, ?_⟩
        intro x hx
        simp only [List.map_cons, List.map_nil, List.mem_singleton]
        obtain ⟨r, hr, hrx⟩ := List.mem_map.mp hx
        intro hxp
        exact habs r hr (by rw [hrx, hxp])
      · intro r hr
        rcases List.mem_append.mp hr with hr | hr
        · have hne : ¬ (meta.path = r.path) := fun hc => habs r hr hc.symm
          rw [hscP r.path, if_neg hne, List.append_nil]
          exact hmin r hr
        · have hr' : r = ⟨meta.path, chunkScore qws (toLowerStr meta.filename) kd.2⟩ := by
            simpa using hr
          subst hr'
          have hempty : scoresFor chunks qws ms meta.path = [] := by
            cases hsf : scoresFor chunks qws ms meta.path with
            | nil => rfl
            | cons s rest =>
              exfalso
              have hs : s ∈ scoresFor chunks qws ms meta.path := by
                rw [hsf]; exact List.mem_cons_self s rest
              obtain ⟨kd', hkd', meta', hfind', hpath', _⟩ :=
                mem_scoresFor chunks qws ms meta.path s hs
              obtain ⟨r', hr', hrp'⟩ := hcomp kd' hkd' meta' hfind'
              exact habs r' hr' (by rw [hrp', hpath'])
          rw [hscP meta.path, if_pos rfl, hempty, List.nil_append]
          exact ⟨List.mem_singleton_self _, fun s hsm => by
            rw [List.mem_singleton.mp hsm]⟩
      · intro kd' hkd' meta' hmeta'
        rcases List.mem_append.mp hkd' with hmem | hmem
        · obtain ⟨r', hr', hrp'⟩ := hcomp kd' hmem meta' hmeta'
          exact ⟨r', List.mem_append_left _ hr', hrp'⟩
        · have hkk : kd' = kd := by simpa using hmem
          subst hkk
          rw [hfind] at hmeta'
          injection hmeta' with hmm
          subst hmm
          exact ⟨⟨meta.path, chunkScore qws (toLowerStr meta.filename) kd'.2⟩,
            List.mem_append_right _ (List.mem_singleton_self _), rfl⟩
    | some r0 =>
      have hr0path : r0.path = meta.path := by
        have := List.find?_some hf2
        simpa using this
      have hr0mem : r0 ∈ m := List.mem_of_find?_eq_some hf2
      by_cases hlt : chunkScore qws (toLowerStr meta.filename) kd.2 < r0.score
      · rw [fmInsert_of_some_lt m meta.path _ r0 hf2 hlt]
        have hpath_pres : ∀ q : SearchResult,
            ((fun q => if q.path = meta.path then
              (⟨meta.path, chunkScore qws (toLowerStr meta.filename) kd.2⟩
                : SearchResult) else q) q).path = q.path := by
          intro q
          show (if q.path = meta.path then
            (⟨meta.path, chunkScore qws (toLowerStr meta.filename) kd.2⟩
              : SearchResult) else q).path = q.path
          by_cases hq : q.path = meta.path
          · rw [if_pos hq, hq]
          · rw [if_neg hq]
        have hmappath : (m.map (fun q => if q.path = meta.path then
            (⟨meta.path, chunkScore qws (toLowerStr meta.filename) kd.2⟩
              : SearchResult) else q)).map (fun r => r.path)
            = m.map (fun r => r.path) := by
          rw [List.map_map]
          exact List.map_congr_left (fun q _ => hpath_pres q)
        refine ⟨by rw [hmappath]; exact hnd, ?_, ?_⟩
        · intro r hr
          obtain ⟨q, hq, hqr⟩ := List.mem_map.mp hr
          by_cases hqp : q.path = meta.path
          · rw [if_pos hqp] at hqr
            subst hqr
            have hq0 : q = r0 :=
              List.inj_on_of_nodup_map hnd hq hr0mem (by rw [hqp, hr0path])
            subst hq0
            rw [hscP meta.path, if_pos rfl]
            constructor
            · exact List.mem_append_right _ (List.mem_singleton_self _)
            · intro s hsm
              rcases List.mem_append.mp hsm with hsm | hsm
              · exact le_of_lt (lt_of_lt_of_le hlt ((hmin q hq).2 s
                  (by rw [hqp]; exact hsm)))
              · rw [List.mem_singleton.mp hsm]
          · rw [if_neg hqp] at hqr
            subst hqr
            have hne : ¬ (meta.path = q.path) := fun hc => hqp hc.symm
            rw [hscP q.path, if_neg hne, List.append_nil]
            exact hmin q hq
        · intro kd' hkd' meta' hmeta'
          rcases List.mem_append.mp hkd' with hmem | hmem
          · obtain ⟨r', hr', hrp'⟩ := hcomp kd' hmem meta' hmeta'
            refine ⟨(fun q => if q.path = meta.path then
              (⟨meta.path, chunkScore qws (toLowerStr meta.filename) kd.2⟩
                : SearchResult) else q) r', List.mem_map_of_mem _ hr', ?_⟩
            rw [hpath_pres r', hrp']
          · have hkk : kd' = kd := by simpa using hmem
            subst hkk
            rw [hfind] at hmeta'
            injection hmeta' with hmm
            subst hmm
            refine ⟨(fun q => if q.path = meta.path then
              (⟨meta.path, chunkScore qws (toLowerStr meta.filename) kd'.2⟩
                : SearchResult) else q) r0, List.mem_map_of_mem _ hr0mem, ?_⟩
            show (if r0.path = meta.path then
              (⟨meta.path, chunkScore qws (toLowerStr meta.filename) kd'.2⟩
                : SearchResult) else r0).path = meta.path
            rw [if_pos hr0path]
      · rw [fmInsert_of_some_ge m meta.path _ r0 hf2 hlt]
        refine ⟨hnd, ?_, ?_⟩
        · intro r hr
          by_cases hrp : r.path = meta.path
          · have hr0 : r = r0 :=
              List.inj_on_of_nodup_map hnd hr hr0mem (by rw [hrp, hr0path])
            subst hr0
            rw [hscP r.path, hrp, if_pos rfl]
            constructor
            · exact List.mem_append_left _ (by rw [← hrp]; exact (hmin r hr).1)
            · intro s hsm
              rcases List.mem_append.mp hsm with hsm | hsm
              · exact (hmin r hr).2 s (by rw [hrp]; exact hsm)
              · rw [List.mem_singleton.mp hsm]
                exact le_of_not_lt hlt
          · have hne : ¬ (meta.path = r.path) := fun hc => hrp hc.symm
            rw [hscP r.path, if_neg hne, List.append_nil]
            exact hmin r hr
        · intro kd' hkd' meta' hmeta'
          rcases List.mem_append.mp hkd' with hmem | hmem
          · exact hcomp kd' hmem meta' hmeta'
          · have hkk : kd' = kd := by simpa using hmem
            subst hkk
            rw [hfind] at hmeta'
            injection hmeta' with hmm
            subst hmm
            exact ⟨r0, hr0mem, hr0path⟩

/-- The ranker's per-path map satisfies the map invariant. -/
lemma buildFileMap_ok (chunks : List ChunkMeta) (qws : List String)
    (ms : List (Nat × ℚ)) :
    MapOK chunks qws ms (buildFileMap chunks qws ms) := by
  induction ms using List.reverseRecOn with
  | nil =>
    refine ⟨by simp [buildFileMap], ?_, ?_⟩
    · intro r hr
      simp [buildFileMap] at hr
    · intro kd hkd
      simp at hkd
  | append_singleton ms kd ih =>
    have heq : buildFileMap chunks qws (ms ++ [kd])
        = (match chunks.find? (fun c => decide (c.id = kd.1)) with
           | none => buildFileMap chunks qws ms
           | some meta =>
             fmInsert (buildFileMap chunks qws ms) meta.path
               (chunkScore qws (toLowerStr meta.filename) kd.2)) := by
      simp only [buildFileMap, List.foldl_append, List.foldl_cons, List.foldl_nil]
    rw [heq]
    exact mapOK_step chunks qws ms (buildFileMap chunks qws ms) kd ih

/-- Claim C4: whenever `run_search` succeeds, its result list has at
most 5 entries, every score is strictly below the 1.2 confidence
threshold, paths are pairwise distinct, the list is sorted ascending by
score, and each entry carries the minimum score among the fragments of
its path considered from the store's search matches. -/
theorem ranker_output (embed : List String → Except String (List (List ℚ)))
    (db : Database) (query : String) (results : List SearchResult)
    (h : run_search embed db query = .ok results) :
    results.length ≤ 5 ∧
    (∀ r ∈ results, r.score < 6/5) ∧
    (results.map (fun r => r.path)).Nodup ∧
    List.Pairwise (fun a b => a.score ≤ b.score) results ∧
    ∃ query_vector rest «matches»,
      embed [query] = .ok (query_vector :: rest) ∧
      db.search query_vector 20 = .ok «matches» ∧
      ∀ r ∈ results,
        r.score ∈ scoresFor db.chunks (queryWords query) «matches» r.path ∧
        ∀ s ∈ scoresFor db.chunks (queryWords query) «matches» r.path,
          r.score ≤ s := by
  unfold run_search at h
  cases hemb : embed [query] with
  | error e =>
    rw [hemb] at h
    have h2 : (Except.error e : Except String (List SearchResult))
        = Except.ok results := h
    cases h2
  | ok embs =>
    rw [hemb] at h
    cases embs with
    | nil =>
      have h2 : (Except.error "index out of bounds"
          : Except String (List SearchResult)) = Except.ok results := h
      cases h2
    | cons query_vector rest =>
      have h2 : (match db.search query_vector 20 with
          | Except.error e => (Except.error e : Except String (List SearchResult))
          | Except.ok «matches» =>
            Except.ok (((sortByScore (buildFileMap db.chunks (queryWords query)
              «matches»)).filter (fun r => decide (r.score < 6/5))).take 5))
          = Except.ok results := h
      cases hsearch : db.search query_vector 20 with
      | error e =>
        rw [hsearch] at h2
        have h3 : (Except.error e : Except String (List SearchResult))
            = Except.ok results := h2
        cases h3
      | ok ms =>
        rw [hsearch] at h2
        have h3 : Except.ok (((sortByScore (buildFileMap db.chunks
            (queryWords query) ms)).filter
              (fun r => decide (r.score < 6/5))).take 5)
            = Except.ok results := h2
        injection h3 with h4
        subst h4
        obtain ⟨hnd, hmin, _⟩ :=
          buildFileMap_ok db.chunks (queryWords query) ms
        set fm := buildFileMap db.chunks (queryWords query) ms with hfm
        have hsub : (((sortByScore fm).filter
            (fun r => decide (r.score < 6/5))).take 5).Sublist (sortByScore fm) :=
          List.Sublist.trans (List.take_sublist _ _) (List.filter_sublist _)
        refine ⟨List.length_take_le 5 _, ?_, ?_, ?_, ?_⟩
        · intro r hr
          have hr' := List.mem_filter.mp ((List.take_sublist _ _).subset hr)
          exact of_decide_eq_true hr'.2
        · have hperm := (sortByScore_perm fm).map (fun r => r.path)
          have hnd2 : ((sortByScore fm).map (fun r => r.path)).Nodup :=
            (hperm.nodup_iff).mpr hnd
          exact List.Nodup.sublist (List.Sublist.map _ hsub) hnd2
        · exact List.Pairwise.sublist hsub (sortByScore_sorted fm)
        · refine ⟨query_vector, rest, ms, rfl, hsearch, ?_⟩
          intro r hr
          have hrfm : r ∈ fm :=
            ((sortByScore_perm fm).mem_iff).mp (hsub.subset hr)
          exact hmin r hrfm

/-- Evaluation of the concrete C4 run: the single stored fragment is
returned with score 1 (cosine distance 1, no filename boost). -/
lemma run_search_W_eval : run_search embedW dbW "q" = .ok [⟨"a.md", 1⟩] := by
  have hcond : ((queryWords "q").any (fun word =>
      decide (2 < byteLen word) && isSubstr word (toLowerStr "a"))) = false := by
    decide
  have hlt : decide ((1 : ℚ) < 6/5) = true := decide_eq_true (by norm_num)
  simp [run_search, embedW, Database.search, Index.search, dbW,
    Index.sortByDist, Index.insertByDist, Index.cosDist, Index.dot,
    buildFileMap, fmInsert, sortByScore, insertByScore, chunkScore,
    hcond, hlt]

/-- Witness for C4: a concrete successful search returning one result,
to which the ranker-shape theorem applies. -/
theorem ranker_output_witness :
    run_search embedW dbW "q" = .ok [⟨"a.md", 1⟩] ∧
    (List.length (α := SearchResult) [⟨"a.md", 1⟩]) ≤ 5 :=
  ⟨run_search_W_eval,
    (ranker_output embedW dbW "q" [⟨"a.md", 1⟩] run_search_W_eval).1⟩

/-! ## Claim C1: the index/metadata consistency invariant -/

lemma zipWith_id_map (metas : List ChunkMeta) (rng : List Nat)
    (h : rng.length ≤ metas.length) :
    (List.zipWith (fun m i => {m with id := i}) metas rng).map (fun c => c.id)
      = rng := by
  induction metas generalizing rng with
  | nil =>
    cases rng with
    | nil => rfl
    | cons i is => simp at h
  | cons m ms ih =>
    cases rng with
    | nil => rfl
    | cons i is =>
      simp only [List.zipWith_cons_cons, List.map_cons, List.cons.injEq]
      exact ⟨trivial, ih is (by simpa using h)⟩

lemma zipWith_path_map (metas : List ChunkMeta) (rng : List Nat) :
    (List.zipWith (fun m i => {m with id := i}) metas rng).map (fun c => c.path)
      = (metas.take rng.length).map (fun c => c.path) := by
  induction metas generalizing rng with
  | nil => cases rng <;> rfl
  | cons m ms ih =>
    cases rng with
    | nil => rfl
    | cons i is =>
      simp only [List.zipWith_cons_cons, List.map_cons, List.length_cons,
        List.take_succ_cons, List.cons.injEq]
      exact ⟨trivial, ih is⟩

/-- A freshly opened empty store satisfies the invariant. -/
lemma good_open_empty : Good (Database.«open» none none) := by
  refine ⟨?_, ?_, ?_⟩
  · intro k
    simp [Database.«open», Index.new, Index.keys, idsOf]
  · simp [Database.«open», idsOf]
  · intro c hc
    simp [Database.«open»] at hc

/-- Reopening a saved invariant-satisfying store preserves the
invariant. -/
lemma good_reopen (db : Database) (h : Good db) :
    Good (Database.«open» db.save.1 db.save.2) := by
  obtain ⟨h1, h2, h3⟩ := h
  exact ⟨h1, h2, fun c hc => lt_nextIdOf db.chunks c hc⟩

/-- `delete_by_path` preserves the invariant. -/
lemma good_delete (db : Database) (p : String) (h : Good db) :
    Good (db.delete_by_path p) := by
  obtain ⟨h1, h2, h3⟩ := h
  obtain ⟨hch, hixe, hnid, _⟩ := delete_by_path_exact db p
  have hkeys : ∀ k, k ∈ (db.delete_by_path p).index.keys ↔
      k ∈ db.index.keys ∧
        k ∉ (db.chunks.filter (fun c => c.path = p)).map (fun c => c.id) := by
    intro k
    rw [Index.keys, hixe]
    constructor
    · intro hk
      obtain ⟨e, he, hek⟩ := List.mem_map.mp hk
      have := List.mem_filter.mp he
      refine ⟨List.mem_map.mpr ⟨e, this.1, hek⟩, ?_⟩
      have h2' := of_decide_eq_true this.2
      rw [← hek]
      exact h2'
    · intro ⟨hk, hnotrm⟩
      obtain ⟨e, he, hek⟩ := List.mem_map.mp hk
      refine List.mem_map.mpr ⟨e, List.mem_filter.mpr ⟨he, ?_⟩, hek⟩
      rw [decide_eq_true_iff]
      rw [hek]
      exact hnotrm
  refine ⟨?_, ?_, ?_⟩
  · intro k
    rw [hkeys k, hch]
    constructor
    · intro ⟨hk, hnotrm⟩
      have hk' := (h1 k).mp hk
      obtain ⟨c, hc, hck⟩ := List.mem_map.mp hk'
      by_cases hcp : c.path = p
      · exfalso
        apply hnotrm
        exact List.mem_map.mpr ⟨c, List.mem_filter.mpr ⟨hc, by simp [hcp]⟩, hck⟩
      · exact List.mem_map.mpr ⟨c, List.mem_filter.mpr ⟨hc, by simp [hcp]⟩, hck⟩
    · intro hk
      obtain ⟨c, hc, hck⟩ := List.mem_map.mp hk
      have hcmem := (List.mem_filter.mp hc).1
      have hcp : ¬ (c.path = p) := by
        have := (List.mem_filter.mp hc).2
        simpa using this
      refine ⟨(h1 k).mpr (List.mem_map.mpr ⟨c, hcmem, hck⟩), ?_⟩
      intro hrm
      obtain ⟨c', hc', hck'⟩ := List.mem_map.mp hrm
      have hc'mem := (List.mem_filter.mp hc').1
      have hc'p : c'.path = p := by
        have := (List.mem_filter.mp hc').2
        simpa using this
      have hcc' : c = c' :=
        List.inj_on_of_nodup_map h2 hcmem hc'mem (by rw [hck, hck'])
      rw [hcc'] at hcp
      exact hcp hc'p
  · rw [hch]
    exact List.Nodup.sublist (List.Sublist.map _ (List.filter_sublist _)) h2
  · intro c hc
    rw [hch] at hc
    rw [hnid]
    exact h3 c (List.mem_filter.mp hc).1

/-- A successful length-matched `insert_chunks` preserves the
invariant. -/
lemma good_insert (db : Database) (metas : List ChunkMeta)
    (vectors : List (List ℚ)) (db' : Database) (h : Good db)
    (hlen : metas.length = vectors.length)
    (hok : db.insert_chunks metas vectors = .ok db') : Good db' := by
  obtain ⟨h1, h2, h3⟩ := h
  unfold Database.insert_chunks at hok
  cases hAL : Database.assignLoop metas vectors db.next_id db.index with
  | error e =>
    rw [hAL] at hok
    cases hok
  | ok out =>
    obtain ⟨metas', nid', ix'⟩ := out
    rw [hAL] at hok
    have hok' : Except.ok (⟨ix', db.chunks ++ metas', nid'⟩ : Database)
        = Except.ok db' := hok
    injection hok' with hdb'
    subst hdb'
    obtain ⟨g1, g2, _, g4⟩ := assignLoop_ok _ _ _ _ _ _ _ hAL
    have hcnt : min metas.length vectors.length = metas.length := by omega
    have hrnglen : (List.range' db.next_id metas.length).length = metas.length :=
      List.length_range' _ _ _
    have hids : metas'.map (fun c => c.id) = List.range' db.next_id metas.length := by
      rw [g1, hcnt]
      simp only [List.drop_length, List.append_nil]
      exact zipWith_id_map metas _ (le_of_eq hrnglen)
    have hkeys : ix'.keys = db.index.keys ++ List.range' db.next_id metas.length := by
      rw [Index.keys, g4, hcnt, List.map_append]
      congr 1
      apply List.map_fst_zip
      rw [hrnglen, List.length_take]
      omega
    refine ⟨?_, ?_, ?_⟩
    · intro k
      show k ∈ ix'.keys ↔ k ∈ idsOf (db.chunks ++ metas')
      rw [hkeys, idsOf, List.map_append, hids, List.mem_append, List.mem_append]
      have := h1 k
      rw [idsOf] at this
      tauto
    · show (idsOf (db.chunks ++ metas')).Nodup
      rw [idsOf, List.map_append, hids]
      rw [List.nodup_append]
      refine ⟨h2, List.nodup_range' _ _, ?_⟩
      rw [List.disjoint_left]
      intro a ha hb
      obtain ⟨c, hc, hck⟩ := List.mem_map.mp ha
      have hlt : a < db.next_id := hck ▸ h3 c hc
      obtain ⟨i, _, hi⟩ := List.mem_range'.mp hb
      omega
    · intro c hc
      show c.id < nid'
      rw [g2, hcnt]
      rcases List.mem_append.mp hc with hc | hc
      · have := h3 c hc
        omega
      · have : c.id ∈ metas'.map (fun c => c.id) := List.mem_map_of_mem _ hc
        rw [hids] at this
        obtain ⟨i, hilt, hi⟩ := List.mem_range'.mp this
        omega

/-- Running any sequence of well-formed operations preserves the
invariant. -/
lemma runOps_good (ops : List Op) : ∀ (db db' : Database), Good db →
    (∀ op ∈ ops, wfOp op) → runOps db ops = .ok db' → Good db' := by
  induction ops with
  | nil =>
    intro db db' hg _ hrun
    have h2 : Except.ok db = Except.ok db' := hrun
    injection h2 with h3
    rw [← h3]
    exact hg
  | cons op ops ih =>
    intro db db' hg hwf hrun
    rw [runOps] at hrun
    cases happ : applyOp db op with
    | error e =>
      rw [happ] at hrun
      cases hrun
    | ok db1 =>
      rw [happ] at hrun
      have hg1 : Good db1 := by
        cases op with
        | insert metas vectors =>
          exact good_insert db metas vectors db1 hg
            (hwf _ (List.mem_cons_self _ _)) happ
        | deleteBySource p =>
          have h2 : Except.ok (db.delete_by_path p) = Except.ok db1 := happ
          injection h2 with h3
          rw [← h3]
          exact good_delete db p hg
      exact ih db1 db' hg1 (fun o ho => hwf o (List.mem_cons_of_mem _ ho)) hrun

/-- Claim C1: starting from an empty or freshly opened store, after any
sequence of completed Vector Store operations (inserts with equally
many fragments and vectors, deletes by source), the set of ids in the
ANN index equals the set of ids in the metadata table. -/
theorem index_metadata_consistent (db0 : Database) (ops : List Op)
    (db' : Database)
    (h0 : db0 = Database.«open» none none ∨
      ∃ prev, Good prev ∧ db0 = Database.«open» prev.save.1 prev.save.2)
    (hwf : ∀ op ∈ ops, wfOp op)
    (hrun : runOps db0 ops = .ok db') :
    ∀ k, k ∈ db'.index.keys ↔ k ∈ idsOf db'.chunks := by
  have hg0 : Good db0 := by
    rcases h0 with rfl | ⟨prev, hprev, rfl⟩
    · exact good_open_empty
    · exact good_reopen prev hprev
  exact (runOps_good ops db0 db' hg0 hwf hrun).1

set_option maxRecDepth 10000 in
/-- Witness for C1: a concrete insert-then-delete run from the empty
store, whose final index key set matches its metadata id set. -/
theorem index_metadata_consistent_witness :
    runOps (Database.«open» none none) opsC1 = .ok dbC1 ∧
    (0 ∈ dbC1.index.keys ↔ 0 ∈ idsOf dbC1.chunks) :=
  ⟨by decide,
   index_metadata_consistent (Database.«open» none none) opsC1 dbC1
     (Or.inl rfl)
     (by
       intro op hop
       rcases List.mem_cons.mp hop with rfl | hop
       · rfl
       · rcases List.mem_cons.mp hop with rfl | hop
         · trivial
         · cases hop)
     (by decide) 0⟩

/-! ## Claim C9: whitespace-only files are emptied out of the index -/

lemma batchStep_eq (acc : Database × List String × List ChunkMeta)
    (r : String × String × List String × Int) :
    batchStep acc r = (acc.1.delete_by_path r.1, acc.2.1 ++ r.2.2.1,
      acc.2.2 ++ r.2.2.1.map (fun text => ⟨0, r.1, r.2.1, text, r.2.2.2⟩)) := rfl

lemma batchFold_db (rs : List (String × String × List String × Int)) :
    ∀ acc : Database × List String × List ChunkMeta,
      (rs.foldl batchStep acc).1
        = rs.foldl (fun d r => d.delete_by_path r.1) acc.1 := by
  induction rs with
  | nil => intro acc; rfl
  | cons r rs ih =>
    intro acc
    rw [List.foldl_cons, List.foldl_cons, ih, batchStep_eq]

lemma foldDelete_chunks (rs : List (String × String × List String × Int)) :
    ∀ db : Database,
      (rs.foldl (fun d r => d.delete_by_path r.1) db).chunks
        = db.chunks.filter (fun c => decide (c.path ∉ rs.map (fun r => r.1))) := by
  induction rs with
  | nil => intro db; simp
  | cons r rs ih =>
    intro db
    rw [List.foldl_cons, ih, (delete_by_path_exact db r.1).1, List.filter_filter]
    apply List.filter_congr
    intro c _
    by_cases h1 : c.path = r.1 <;> by_cases h2 : c.path ∈ rs.map (fun r => r.1) <;>
      simp [h1, h2]

lemma foldDelete_next (rs : List (String × String × List String × Int)) :
    ∀ db : Database,
      (rs.foldl (fun d r => d.delete_by_path r.1) db).next_id = db.next_id := by
  induction rs with
  | nil => intro db; rfl
  | cons r rs ih =>
    intro db
    rw [List.foldl_cons, ih, (delete_by_path_exact db r.1).2.2.1]

lemma delete_keys_sub (db : Database) (p : String) (k : Nat)
    (hk : k ∈ (db.delete_by_path p).index.keys) : k ∈ db.index.keys := by
  rw [Index.keys, (delete_by_path_exact db p).2.1] at hk
  obtain ⟨e, he, hek⟩ := List.mem_map.mp hk
  exact List.mem_map.mpr ⟨e, (List.mem_filter.mp he).1, hek⟩

lemma foldDelete_keys_mono (rs : List (String × String × List String × Int)) :
    ∀ (db : Database) (k : Nat),
      k ∈ (rs.foldl (fun d r => d.delete_by_path r.1) db).index.keys →
      k ∈ db.index.keys := by
  induction rs with
  | nil => intro db k hk; exact hk
  | cons r rs ih =>
    intro db k hk
    rw [List.foldl_cons] at hk
    exact delete_keys_sub db r.1 k (ih _ k hk)

lemma foldDelete_removes (rs : List (String × String × List String × Int)) :
    ∀ (db : Database), ∀ c ∈ db.chunks, c.path ∈ rs.map (fun r => r.1) →
      c.id ∉ (rs.foldl (fun d r => d.delete_by_path r.1) db).index.keys := by
  induction rs with
  | nil =>
    intro db c hc h
    simp at h
  | cons r rs ih =>
    intro db c hc hpath
    rw [List.foldl_cons]
    by_cases hcp : c.path = r.1
    · intro hmem
      have hkey := foldDelete_keys_mono rs (db.delete_by_path r.1) c.id hmem
      have hout : c.id ∉ (db.delete_by_path r.1).index.keys := by
        rw [Index.keys, (delete_by_path_exact db r.1).2.1]
        intro hk
        obtain ⟨e, he, hek⟩ := List.mem_map.mp hk
        have hf := List.mem_filter.mp he
        have hnotrm : e.1 ∉ (db.chunks.filter
            (fun c => c.path = r.1)).map (fun c => c.id) := by
          simpa using hf.2
        apply hnotrm
        rw [hek]
        exact List.mem_map.mpr ⟨c, List.mem_filter.mpr ⟨hc, by simp [hcp]⟩, rfl⟩
      exact hout hkey
    · have hpath' : c.path ∈ rs.map (fun r => r.1) := by
        rw [List.map_cons] at hpath
        rcases List.mem_cons.mp hpath with h1 | h1
        · exact absurd h1 hcp
        · exact h1
      have hc' : c ∈ (db.delete_by_path r.1).chunks := by
        rw [(delete_by_path_exact db r.1).1]
        exact List.mem_filter.mpr ⟨hc, by simpa using hcp⟩
      exact ih (db.delete_by_path r.1) c hc' hpath'

lemma batchFold_metas_mem (rs : List (String × String × List String × Int)) :
    ∀ (acc : Database × List String × List ChunkMeta) (m : ChunkMeta),
      m ∈ (rs.foldl batchStep acc).2.2 →
      m ∈ acc.2.2 ∨ ∃ r ∈ rs, m.path = r.1 ∧ r.2.2.1 ≠ [] := by
  induction rs with
  | nil =>
    intro acc m hm
    left
    exact hm
  | cons r rs ih =>
    intro acc m hm
    rw [List.foldl_cons, batchStep_eq] at hm
    rcases ih _ m hm with hm' | ⟨r', hr', hp', hne'⟩
    · rcases List.mem_append.mp hm' with h1 | h1
      · left; exact h1
      · right
        obtain ⟨t, ht, hmt⟩ := List.mem_map.mp h1
        exact ⟨r, List.mem_cons_self _ _, by rw [← hmt], List.ne_nil_of_mem ht⟩
    · right
      exact ⟨r', List.mem_cons_of_mem _ hr', hp', hne'⟩

/-- Claim C9: a file in a sync batch whose content is whitespace-only
produces zero fragments, yet its previously stored fragments are still
deleted: after the batch, no metadata row carries that file's path and
none of the file's old ids remains in the ANN index.  (Paths within a
batch are distinct — the scan visits each file once — and the store's
ids are below its id counter, as every store the program builds
satisfies.) -/
theorem whitespace_file_cleanup (files : List FileEnt) (db : Database)
    (embed : List String → Except String (List (List ℚ)))
    (f : FileEnt) (db' : Database)
    (hf : f ∈ files)
    (hws : isWhitespaceOnly f.content = true)
    (huniq : ∀ g ∈ files, g.relPath = f.relPath → g = f)
    (hdom : ∀ c ∈ db.chunks, c.id < db.next_id)
    (hrun : process_batch files db embed = .ok db') :
    fileChunks f = [] ∧
    (∀ c ∈ db'.chunks, c.path ≠ f.relPath) ∧
    (∀ c ∈ db.chunks, c.path = f.relPath → c.id ∉ db'.index.keys) := by
  have hchn : fileChunks f = [] := by simp [fileChunks, hws]
  set rs := files.map chunkFileResult with hrs
  set folded := rs.foldl batchStep (db, ([] : List String), ([] : List ChunkMeta))
    with hfolded
  have hdb2c : folded.1.chunks = db.chunks.filter
      (fun c => decide (c.path ∉ rs.map (fun r => r.1))) := by
    rw [hfolded, batchFold_db, foldDelete_chunks]
  have hdb2n : folded.1.next_id = db.next_id := by
    rw [hfolded, batchFold_db, foldDelete_next]
  have hfpath : f.relPath ∈ rs.map (fun r => r.1) := by
    rw [hrs, List.map_map]
    exact List.mem_map.mpr ⟨f, hf, rfl⟩
  have hremoved : ∀ c ∈ db.chunks, c.path = f.relPath →
      c.id ∉ folded.1.index.keys := by
    intro c hc hcp
    rw [hfolded, batchFold_db]
    exact foldDelete_removes rs db c hc (by rw [hcp]; exact hfpath)
  have hnof : ∀ c ∈ folded.1.chunks, c.path ≠ f.relPath := by
    intro c hc hcp
    rw [hdb2c] at hc
    have hfi := (List.mem_filter.mp hc).2
    rw [decide_eq_true_iff] at hfi
    apply hfi
    rw [hcp]
    exact hfpath
  have hmetas : ∀ m ∈ folded.2.2, m.path ≠ f.relPath := by
    intro m hm hmp
    rcases batchFold_metas_mem rs _ m hm with h1 | ⟨r, hr, hp, hne⟩
    · simp at h1
    · rw [hrs] at hr
      obtain ⟨g, hg, hgr⟩ := List.mem_map.mp hr
      have hr1 : r.1 = g.relPath := by rw [← hgr]; rfl
      have hgf : g = f := huniq g hg (by rw [← hr1, ← hp, hmp])
      apply hne
      rw [← hgr, hgf]
      show fileChunks f = []
      exact hchn
  have hrun2 : (if folded.2.1.isEmpty then Except.ok folded.1
      else match embedBatches embed folded.2.1 with
        | .error e => .error e
        | .ok all_embeddings =>
          folded.1.insert_chunks folded.2.2 all_embeddings)
      = .ok db' := hrun
  by_cases hempty : folded.2.1.isEmpty = true
  · rw [if_pos hempty] at hrun2
    injection hrun2 with hdb
    subst hdb
    exact ⟨hchn, hnof, hremoved⟩
  · rw [if_neg hempty] at hrun2
    cases hemb : embedBatches embed folded.2.1 with
    | error e =>
      rw [hemb] at hrun2
      cases hrun2
    | ok embs =>
      rw [hemb] at hrun2
      have hrun3 : (match Database.assignLoop folded.2.2 embs
            folded.1.next_id folded.1.index with
          | Except.error e => (Except.error e : Except String Database)
          | Except.ok (metas', nid', ix') =>
            Except.ok ⟨ix', folded.1.chunks ++ metas', nid'⟩)
          = Except.ok db' := hrun2
      cases hAL : Database.assignLoop folded.2.2 embs folded.1.next_id
          folded.1.index with
      | error e =>
        rw [hAL] at hrun3
        have hrun4 : (Except.error e : Except String Database)
            = Except.ok db' := hrun3
        cases hrun4
      | ok out =>
        obtain ⟨metas', nid', ix'⟩ := out
        rw [hAL] at hrun3
        have hok' : Except.ok
            (⟨ix', folded.1.chunks ++ metas', nid'⟩ : Database)
            = Except.ok db' := hrun3
        injection hok' with hdb
        subst hdb
        obtain ⟨g1, g2, g3, g4⟩ := assignLoop_ok _ _ _ _ _ _ _ hAL
        refine ⟨hchn, ?_, ?_⟩
        · intro c hc
          rcases List.mem_append.mp hc with hc | hc
          · exact hnof c hc
          · have hcpath : c.path ∈ metas'.map (fun c => c.path) :=
              List.mem_map_of_mem _ hc
            rw [g1, List.map_append, zipWith_path_map] at hcpath
            intro hcf
            rcases List.mem_append.mp hcpath with hcp | hcp
            · obtain ⟨mm, hmm, hmmp⟩ := List.mem_map.mp hcp
              exact hmetas mm ((List.take_sublist _ _).subset hmm)
                (by rw [hmmp, hcf])
            · obtain ⟨mm, hmm, hmmp⟩ := List.mem_map.mp hcp
              exact hmetas mm ((List.drop_sublist _ _).subset hmm)
                (by rw [hmmp, hcf])
        · intro c hc hcp
          have hgone := hremoved c hc hcp
          have hlt : c.id < db.next_id := hdom c hc
          show c.id ∉ ix'.keys
          rw [Index.keys, g4, List.map_append]
          intro hmem
          rcases List.mem_append.mp hmem with hmem | hmem
          · exact hgone hmem
          · have hlen2 : (List.range' folded.1.next_id
                (min folded.2.2.length embs.length)).length ≤
                (embs.take (min folded.2.2.length embs.length)).length := by
              rw [List.length_range', List.length_take]
              omega
            rw [List.map_fst_zip _ _ hlen2] at hmem
            obtain ⟨i, hi, hieq⟩ := List.mem_range'.mp hmem
            rw [hdb2n] at hieq
            omega

set_option maxRecDepth 10000 in
/-- Witness for C9: a batch containing one whitespace-only file whose
path was previously indexed ends with that path absent from the store. -/
theorem whitespace_file_cleanup_witness :
    process_batch [fileC9] dbC9 embedC = .ok dbC9' ∧ fileChunks fileC9 = [] :=
  ⟨by decide,
   (whitespace_file_cleanup [fileC9] dbC9 embedC fileC9 dbC9'
     (by decide) (by decide) (by decide) (by decide) (by decide)).1⟩

/-! ## Claim C2: the watermark written by a sync pass -/

/-- Amended claim C2: a full sync pass that finds at least one file and
completes without error writes a watermark equal to the wall-clock
value sampled when the watermark is written — the end of the pass, not
its start (`run_index` reads the clock exactly once, after all groups
are processed and the store is saved); a group failure aborts the pass
with the watermark file unchanged. -/
theorem run_index_watermark (files : List FileEnt) (force : Bool)
    (metaFile : Option Int) (db : Database)
    (embed : List String → Except String (List (List ℚ))) (now : Int) :
    (∀ db', filesToIndex files force metaFile ≠ [] →
      (run_index files force metaFile db embed now).1 = .ok db' →
      (run_index files force metaFile db embed now).2 = some now) ∧
    (∀ e, (run_index files force metaFile db embed now).1 = .error e →
      (run_index files force metaFile db embed now).2 = metaFile) := by
  by_cases hempty : (filesToIndex files force metaFile).isEmpty = true
  · have h1 : run_index files force metaFile db embed now
        = (.ok db, metaFile) := by
      simp only [run_index]
      rw [if_pos hempty]
    constructor
    · intro db' hne _
      exact absurd (List.isEmpty_iff.mp hempty) hne
    · intro e herr
      rw [h1] at herr
      cases herr
  · cases hpb : processBatches (filesToIndex files force metaFile) db embed with
    | ok db2 =>
      have h1 : run_index files force metaFile db embed now
          = (.ok db2, some now) := by
        simp only [run_index]
        rw [if_neg hempty, hpb]
      constructor
      · intro db' _ _
        rw [h1]
      · intro e herr
        rw [h1] at herr
        cases herr
    | error e2 =>
      have h1 : run_index files force metaFile db embed now
          = (.error e2, metaFile) := by
        simp only [run_index]
        rw [if_neg hempty, hpb]
      constructor
      · intro db' hne hok
        rw [h1] at hok
        cases hok
      · intro e _
        rw [h1]

set_option maxRecDepth 10000 in
/-- Counterexample for C2 as stated: the watermark equals the clock
value at the single `Utc::now()` read, which happens after the groups
are processed — the end of the pass.  A pass starting at wall-clock 0
whose clock read returns 5 writes watermark 5, not the start time 0;
the identical pass with the clock read returning 7 writes 7, so the
watermark cannot equal the (fixed) start time of the pass. -/
theorem run_index_watermark_counterexample :
    (run_index [fileC2] true none dbE embedC 5).2 = some 5 ∧
    (run_index [fileC2] true none dbE embedC 5).2 ≠ some 0 ∧
    (run_index [fileC2] true none dbE embedC 7).2 = some 7 :=
  ⟨by decide, by decide, by decide⟩

set_option maxRecDepth 10000 in
/-- Witness for C2 (amended): the successful concrete pass writes the
end-of-pass clock value 5; the same pass with a failing embedder leaves
the (absent) watermark file unchanged. -/
theorem run_index_watermark_witness :
    (run_index [fileC2] true none dbE embedC 5).2 = some 5 ∧
    (run_index [fileC2] true none dbE embedFail 5).2 = none :=
  ⟨(run_index_watermark [fileC2] true none dbE embedC 5).1 dbC2'
      (by decide) (by decide),
   (run_index_watermark [fileC2] true none dbE embedFail 5).2 "boom"
      (by decide)⟩

end Brain
